import Mathlib

/-
Verification of the VHS course-watcher pipeline (scraper.py): the course-identifier
extractor, block segmenter, title heuristic, record builder, snapshot differ, the
download content-type check and the watcher loop.  Text is embedded as lists of
characters compared by code point; the character-level functions model the ASCII
behavior of the corresponding Python string and regex operations.
-/

namespace VHS

/-- Strings of the scraped documents, embedded as lists of characters. -/
abbrev Str := List Char

/-- Decimal digit, as matched by the d class of the course-id regex (ASCII model). -/
def isDigitB (c : Char) : Bool := decide (48 ≤ c.toNat ∧ c.toNat ≤ 57)

/-- Uppercase latin letter, the character class of the optional suffix of the course-id regex. -/
def isUpperB (c : Char) : Bool := decide (65 ≤ c.toNat ∧ c.toNat ≤ 90)

/-- Word character for the regex word boundary (letters, digits, underscore; ASCII model). -/
def isWordChar (c : Char) : Bool :=
  decide ((48 ≤ c.toNat ∧ c.toNat ≤ 57) ∨ (65 ≤ c.toNat ∧ c.toNat ≤ 90) ∨
    (97 ≤ c.toNat ∧ c.toNat ≤ 122) ∨ c.toNat = 95)

/-- Whitespace stripped by the argument-less strip of Python (ASCII part). -/
def pySpace (c : Char) : Bool :=
  decide (c.toNat = 32 ∨ c.toNat = 9 ∨ c.toNat = 10 ∨ c.toNat = 13 ∨ c.toNat = 11 ∨
    c.toNat = 12 ∨ c.toNat = 28 ∨ c.toNat = 29 ∨ c.toNat = 30 ∨ c.toNat = 31)

/-- Trailing word boundary test: holds at the end of the text or before a non-word character. -/
def noWordAfter : Str → Bool
  | [] => true
  | c :: _ => !isWordChar c

/-- One attempt of COURSE_ID_RE at the head of the list: the literal FK, a digit, a dot,
three digits, then the greedy optional dash-uppercase suffix, with the trailing word
boundary; the suffix backtracks to the empty alternative when the boundary after the
suffix fails (then the dash itself provides the boundary after the last digit).  The
leading boundary is the caller's responsibility. -/
def matchIdCore : Str → Option Str
  | 'F' :: 'K' :: d1 :: '.' :: d2 :: d3 :: d4 :: rest =>
    if isDigitB d1 && isDigitB d2 && isDigitB d3 && isDigitB d4 then
      match rest with
      | c :: u :: rest2 =>
        if c = '-' ∧ isUpperB u = true ∧ noWordAfter rest2 = true then
          some ['F', 'K', d1, '.', d2, d3, d4, '-', u]
        else if noWordAfter rest then some ['F', 'K', d1, '.', d2, d3, d4] else none
      | _ => if noWordAfter rest then some ['F', 'K', d1, '.', d2, d3, d4] else none
    else none
  | _ => none

/-- Left-to-right non-overlapping scan of COURSE_ID_RE.finditer, producing the matched
identifier together with its start offset.  The skip counter consumes the remaining
characters of an emitted match, so the scan resumes at the match end exactly as
finditer does; prevWord tracks whether the previous character is a word character,
which decides the leading word boundary before a candidate position. -/
def scanAux : Str → Nat → Nat → Bool → List (Str × Nat)
  | [], _, _, _ => []
  | c :: rest, pos, skip + 1, _ => scanAux rest (pos + 1) skip (isWordChar c)
  | c :: rest, pos, 0, prevWord =>
    if prevWord then scanAux rest (pos + 1) 0 (isWordChar c)
    else
      match matchIdCore (c :: rest) with
      | some m => (m, pos) :: scanAux rest (pos + 1) (m.length - 1) true
      | none => scanAux rest (pos + 1) 0 (isWordChar c)

/-- All COURSE_ID_RE matches of a text with their start offsets, in document order. -/
def courseIdMatches (text : Str) : List (Str × Nat) := scanAux text 0 0 false

/-- Removal of every COURSE_ID_RE match, as COURSE_ID_RE.sub with the empty replacement:
the same scan as scanAux, except that the matched characters are dropped and all other
characters are kept. -/
def subIdsAux : Str → Nat → Bool → Str
  | [], _, _ => []
  | c :: rest, skip + 1, _ => subIdsAux rest skip (isWordChar c)
  | c :: rest, 0, prevWord =>
    if prevWord then c :: subIdsAux rest 0 (isWordChar c)
    else
      match matchIdCore (c :: rest) with
      | some m => subIdsAux rest (m.length - 1) true
      | none => c :: subIdsAux rest 0 (isWordChar c)

/-- COURSE_ID_RE.sub applied with the empty replacement string. -/
def subIds (l : Str) : Str := subIdsAux l 0 false

/-- COURSE_ID_RE.search as a Boolean: does the text contain at least one match. -/
def hasId (l : Str) : Bool := !(courseIdMatches l).isEmpty

/-- Line break characters of splitlines other than carriage return (ASCII part). -/
def isLineBreakChar (c : Char) : Bool :=
  decide (c.toNat = 10 ∨ c.toNat = 11 ∨ c.toNat = 12 ∨ c.toNat = 28 ∨ c.toNat = 29 ∨ c.toNat = 30)

/-- Worker of splitlines: acc holds the reversed current line. -/
def splitlinesAux : Str → Str → List Str
  | [], acc => if acc.isEmpty then [] else [acc.reverse]
  | '\r' :: '\n' :: rest, acc => acc.reverse :: splitlinesAux rest []
  | '\r' :: rest, acc => acc.reverse :: splitlinesAux rest []
  | c :: rest, acc =>
    if isLineBreakChar c then acc.reverse :: splitlinesAux rest []
    else splitlinesAux rest (c :: acc)

/-- Python str.splitlines: no trailing empty line for a trailing line break. -/
def splitlines (l : Str) : List Str := splitlinesAux l []

/-- Python str.lstrip of whitespace. -/
def trimLeft (l : Str) : Str := l.dropWhile pySpace

/-- Python str.rstrip of whitespace. -/
def trimRight (l : Str) : Str := (l.reverse.dropWhile pySpace).reverse

/-- Python str.strip of whitespace on both ends. -/
def trimStr (l : Str) : Str := trimRight (trimLeft l)

/-- Character set of the strip applied to the title remainder: space, dash, en dash,
em dash and tab. -/
def isDashSpace (c : Char) : Bool := decide (c = ' ' ∨ c = '-' ∨ c = '–' ∨ c = '—' ∨ c = '\t')

/-- Python strip with the dash-space character set, on both ends. -/
def trimDash (l : Str) : Str := ((l.dropWhile isDashSpace).reverse.dropWhile isDashSpace).reverse

/-- Python str.lower, ASCII model. -/
def lowerStr (l : Str) : Str := l.map Char.toLower

/-- One detected course listing: the Course dataclass of the source. -/
structure Course where
  course_id : Str
  title : Str
  raw : Str
deriving DecidableEq

/-- Non-empty stripped lines of a block, in document order. -/
def lines_of (block : Str) : List Str :=
  ((splitlines block).map trimStr).filter (fun l => !l.isEmpty)

/-- Scan of the title heuristic over the candidate lines: a line with an identifier match
is stripped of all matches and of surrounding dash-space characters and accepted when
the remainder is non-empty and differs case-insensitively from the course id of the
block; a line without an identifier match is accepted when it has at least six
characters; otherwise the scan continues, and the empty title is the fallback. -/
def titleScan (cid : Str) : List Str → Str
  | [] => []
  | ln :: rest =>
    if hasId ln then
      (let r := trimDash (subIds ln)
       if r ≠ [] ∧ lowerStr r ≠ lowerStr cid then r else titleScan cid rest)
    else if 6 ≤ ln.length then ln
    else titleScan cid rest

/-- Title heuristic of pdf_to_courses: scan at most the first six non-empty stripped lines. -/
def computeTitle (cid : Str) (block : Str) : Str :=
  titleScan cid ((lines_of block).take 6)

/-- Python slice text[s:e]. -/
def sliceStr (text : Str) (s e : Nat) : Str := (text.take e).drop s

/-- Block boundaries of pdf_to_courses: each match spans from its own start offset to the
start offset of the next match, or to the text length for the last match. -/
def segments : List (Str × Nat) → Nat → List (Str × Nat × Nat)
  | [], _ => []
  | [(cid, s)], tlen => [(cid, s, tlen)]
  | (cid, s) :: m2 :: rest, tlen => (cid, s, m2.2) :: segments (m2 :: rest) tlen

/-- Membership of a key in a list of keys, by equality. -/
def memStr (k : Str) : List Str → Bool
  | [] => false
  | x :: xs => if x = k then true else memStr k xs

/-- First value stored under a key in an association list (the dict lookup). -/
def lookupKey {β : Type} (k : Str) : List (Str × β) → Option β
  | [] => none
  | kv :: rest => if kv.1 = k then some kv.2 else lookupKey k rest

/-- Python dict assignment d[k] = v: replace the value in place when the key exists,
otherwise append the new binding. -/
def dinsert {β : Type} (k : Str) (v : β) (m : List (Str × β)) : List (Str × β) :=
  if memStr k (m.map (fun kv => kv.1)) then
    m.map (fun kv => if kv.1 = k then (k, v) else kv)
  else m ++ [(k, v)]

/-- Record built from one segment: the identifier verbatim from the match, the raw text as
the stripped slice of the segment span, and the heuristic title of that block. -/
def recordOfSeg (text : Str) (seg : Str × Nat × Nat) : Str × Course :=
  (seg.1, Course.mk seg.1 (computeTitle seg.1 (trimStr (sliceStr text seg.2.1 seg.2.2)))
    (trimStr (sliceStr text seg.2.1 seg.2.2)))

/-- Course record builder of pdf_to_courses, over the extracted text of the document (the
byte-level extraction of the text from the PDF is the external collaborator): find all
identifier matches, cut the text into blocks at the match offsets, strip each block,
compute its title and assign the record into the dict keyed by identifier. -/
def pdf_to_courses (text : Str) : List (Str × Course) :=
  (segments (courseIdMatches text) text.length).foldl
    (fun acc seg =>
      let block := trimStr (sliceStr text seg.2.1 seg.2.2)
      let title := computeTitle seg.1 block
      dinsert seg.1 (Course.mk seg.1 title block) acc) []

/-- Code-point comparison of strings, the Python string less-than. -/
def strLtB : Str → Str → Bool
  | [], [] => false
  | [], _ :: _ => true
  | _ :: _, [] => false
  | a :: as, b :: bs =>
    if a.toNat < b.toNat then true
    else if b.toNat < a.toNat then false
    else strLtB as bs

/-- Insertion of a string into an ascending list, keeping it ascending. -/
def insSorted (x : Str) : List Str → List Str
  | [] => [x]
  | y :: ys => if strLtB y x then y :: insSorted x ys else x :: y :: ys

/-- Python sorted for lists of strings: ascending by code-point comparison. -/
def sortStrs (l : List Str) : List Str := l.foldr insSorted []

/-- Serialized record as stored in the state file: a JSON object, field name to value. -/
abbrev JsonDict := List (Str × Str)

/-- Field names of the Course dataclass, in declaration order. -/
def fieldCourseId : Str := "course_id".toList

/-- Field name of the title. -/
def fieldTitle : Str := "title".toList

/-- Field name of the raw block. -/
def fieldRaw : Str := "raw".toList

/-- dataclasses.asdict applied to a Course. -/
def dictOfCourse (c : Course) : JsonDict :=
  [(fieldCourseId, c.course_id), (fieldTitle, c.title), (fieldRaw, c.raw)]

/-- Course constructed from keyword arguments, Course(**d): succeeds exactly when the dict
carries the three dataclass fields and nothing else, and fails with a TypeError (modelled
as none) on a missing or unexpected field. -/
def courseOfDict (d : JsonDict) : Option Course :=
  match lookupKey fieldCourseId d, lookupKey fieldTitle d, lookupKey fieldRaw d with
  | some i, some t, some r => if d.length = 3 then some (Course.mk i t r) else none
  | _, _, _ => none

/-- Keys of an association list, in order. -/
def keysOf {β : Type} (m : List (Str × β)) : List Str := m.map (fun kv => kv.1)

/-- Collecting map over an option-producing function; none as soon as one element fails,
as a Python list comprehension that may raise. -/
def mapOption {α β : Type} (f : α → Option β) : List α → Option (List β)
  | [] => some []
  | a :: as =>
    match f a, mapOption f as with
    | some b, some bs => some (b :: bs)
    | _, _ => none

/-- Identifiers in the current snapshot and not in the prior one, sorted ascending: the
new_ids of diff_courses. -/
def added_ids (prev : List (Str × JsonDict)) (curr : List (Str × Course)) : List Str :=
  sortStrs ((keysOf curr).filter (fun k => !memStr k (keysOf prev)))

/-- Identifiers in the prior snapshot and not in the current one, sorted ascending: the
removed_ids of diff_courses. -/
def removed_ids (prev : List (Str × JsonDict)) (curr : List (Str × Course)) : List Str :=
  sortStrs ((keysOf prev).filter (fun k => !memStr k (keysOf curr)))

/-- Snapshot differ: new courses are the current records at the sorted new identifiers, and
removed courses are reconstructed with Course(**prev[cid]) from the prior stored fields at
the sorted removed identifiers; none models an uncaught KeyError or TypeError. -/
def diff_courses (prev : List (Str × JsonDict)) (curr : List (Str × Course)) :
    Option (List Course × List Course) :=
  match mapOption (fun cid => lookupKey cid curr) (added_ids prev curr) with
  | none => none
  | some new_courses =>
    match
      (if (removed_ids prev curr).isEmpty then some []
       else mapOption (fun cid => (lookupKey cid prev).bind courseOfDict)
         (removed_ids prev curr)) with
    | none => none
    | some removed_courses => some (new_courses, removed_courses)

/-- Boolean test that the first list is an initial segment of the second. -/
def startsWithB : Str → Str → Bool
  | [], _ => true
  | _ :: _, [] => false
  | a :: as, b :: bs => if a = b then startsWithB as bs else false

/-- Python substring containment, needle in haystack. -/
def containsSub (n : Str) : Str → Bool
  | [] => n.isEmpty
  | c :: rest => startsWithB n (c :: rest) || containsSub n rest

/-- Substring containment as a proposition: the haystack decomposes around the needle. -/
def SubStr (n h : Str) : Prop := ∃ l r, h = l ++ n ++ r

/-- Outcome of the download step after a successful status check. -/
inductive FetchOutcome where
  | raised : FetchOutcome
  | ok : List Nat → FetchOutcome
deriving DecidableEq

/-- Needle of the content-type test. -/
def pdfToken : Str := "pdf".toList

/-- Needle of the content-disposition test. -/
def attachToken : Str := "attachment".toList

/-- Tail of download_pdf_via_webforms after raise_for_status on a successful response:
lower-case the two headers (absent headers are the empty string); when the content type
does not contain pdf and the disposition does not contain attachment, first write the raw
body to the debug file and then raise, otherwise return the raw body.  The first component
is the content of the debug file when one was written. -/
def download_pdf_check (ctype disp : Str) (content : List Nat) :
    Option (List Nat) × FetchOutcome :=
  let ct := lowerStr ctype
  let dp := lowerStr disp
  if !containsSub pdfToken ct && !containsSub attachToken dp then
    (some content, FetchOutcome.raised)
  else (none, FetchOutcome.ok content)

/-- Per-search run data of the watcher loop, with the external collaborators as oracles:
the prior snapshot returned by load_state, the current record set produced by the document
fetch plus pdf_to_courses (none when fetching or parsing raised), and the outcome of the
notification delivery when one is attempted. -/
structure WatcherRun where
  prevState : List (Str × JsonDict)
  fetched : Option (List (Str × Course))
  sendOk : Bool
deriving DecidableEq

/-- Result of a run of main: the snapshots persisted by save_state in order, and on normal
completion the value of the loop variable new_courses after the loop (none when the loop
body never ran). -/
inductive MainResult where
  | aborted : List (List (Str × JsonDict)) → MainResult
  | finished : List (List (Str × JsonDict)) → Option (List Course) → MainResult
deriving DecidableEq

/-- save_state serialization of the current record set, key to asdict of the record. -/
def serializeSnap (curr : List (Str × Course)) : List (Str × JsonDict) :=
  curr.map (fun kv => (kv.1, dictOfCourse kv.2))

/-- Watcher loop of main: for each search in order, load the prior snapshot, fetch and
parse the current one, diff, send the notification when new courses exist, and only then
persist the current snapshot; a fetch failure, a diff failure or a delivery failure
aborts the remaining searches. -/
def runWatchers : List WatcherRun → List (List (Str × JsonDict)) → Option (List Course) →
    MainResult
  | [], saved, lastNew => MainResult.finished saved lastNew
  | w :: ws, saved, _ =>
    match w.fetched with
    | none => MainResult.aborted saved
    | some curr =>
      match diff_courses w.prevState curr with
      | none => MainResult.aborted saved
      | some (newCourses, _removed) =>
        if newCourses.isEmpty then
          runWatchers ws (saved ++ [serializeSnap curr]) (some newCourses)
        else if w.sendOk then
          runWatchers ws (saved ++ [serializeSnap curr]) (some newCourses)
        else MainResult.aborted saved

/-- Run of main over the configured watcher list. -/
def mainRun (ws : List WatcherRun) : MainResult := runWatchers ws [] none

/-- Value written for has_new into the GitHub output after the loop: true when the loop
variable new_courses is non-empty; nothing is written when the run aborted, and the write
itself raises a NameError when no loop iteration defined new_courses. -/
def githubOutputFlag : MainResult → Option Bool
  | MainResult.aborted _ => none
  | MainResult.finished _ none => none
  | MainResult.finished _ (some nc) => some (!nc.isEmpty)

/-- Modelled from the spec, for comparison with the source title heuristic: the acceptance
test of one candidate line, as section 4.3 words it. -/
def titleCandidate (cid ln : Str) : Option Str :=
  if hasId ln then
    (let r := trimDash (subIds ln)
     if r ≠ [] ∧ lowerStr r ≠ lowerStr cid then some r else none)
  else if 6 ≤ ln.length then some ln else none

/-- Folding dict assignments over a list of key-value pairs, the loop shape of the builder. -/
def foldIns {β : Type} (kvs : List (Str × β)) (acc : List (Str × β)) : List (Str × β) :=
  kvs.foldl (fun a kv => dinsert kv.1 kv.2 a) acc

/-- Sample course used by concrete checks. -/
def demoCourseA : Course :=
  Course.mk "FK2.604-A".toList "Ring schmieden".toList "FK2.604-A Ring schmieden".toList

/-- Second sample course. -/
def demoCourseC : Course :=
  Course.mk "FK2.664-C".toList "Kette loeten".toList "FK2.664-C Kette loeten".toList

/-- Sample current snapshot with two records, deliberately not in identifier order. -/
def demoCurr2 : List (Str × Course) :=
  [("FK2.664-C".toList, demoCourseC), ("FK2.604-A".toList, demoCourseA)]

/-- Prior snapshot storing the same identifier as demoCurrNew with a different title. -/
def demoPrevOld : List (Str × JsonDict) :=
  [("FK2.604-A".toList,
    [(fieldCourseId, "FK2.604-A".toList), (fieldTitle, "Alt".toList), (fieldRaw, "x".toList)])]

/-- Record stored in demoCurrNew. -/
def demoCourseNew : Course := Course.mk "FK2.604-A".toList "Neu".toList "y".toList

/-- Current snapshot with the same key set as demoPrevOld and a different title. -/
def demoCurrNew : List (Str × Course) := [("FK2.604-A".toList, demoCourseNew)]

/-- A serialized record missing the title and raw fields. -/
def demoBadDict : JsonDict := [(fieldCourseId, "FK2.604-A".toList)]

/-- Sample document text with one identifier match. -/
def demoText9 : Str := "FK2.604-A Goldschmiede\nMo 18:00".toList

/-- The record the pipeline builds from demoText9. -/
def demoCourse9 : Course := Course.mk "FK2.604-A".toList "Goldschmiede".toList demoText9

/-- Sample document text with the same identifier matched twice. -/
def demoTextDup : Str := "FK2.604 alt FK2.604 neu".toList

/-- Sample document text with no identifier match. -/
def demoTextNone : Str := "Keine Kurse gefunden".toList

/-- Watcher whose diff has one addition and whose notification succeeds. -/
def demoWatcherAdd : WatcherRun := WatcherRun.mk [] (some demoCurrNew) true

/-- Watcher whose diff is empty. -/
def demoWatcherQuiet : WatcherRun := WatcherRun.mk demoPrevOld (some demoCurrNew) true

/-- Watcher whose diff has one addition and whose notification delivery fails. -/
def demoWatcherFail : WatcherRun := WatcherRun.mk [] (some demoCurrNew) false

/-- Facts about a matched identifier token used by the well-formedness proofs: the token is
non-empty and starts with a non-space character, ends in a word character that is not a
space, and matches again when followed by any tail that provides a word boundary. -/
def IdTokenFacts (m : Str) : Prop :=
  (∃ c t, m = c :: t ∧ pySpace c = false) ∧
  (∃ c, m.getLast? = some c ∧ isWordChar c = true ∧ pySpace c = false) ∧
  (∀ r : Str, noWordAfter r = true → (matchIdCore (m ++ r)).isSome = true)

theorem charEq_of_toNat {a b : Char} (h : a.toNat = b.toNat) : a = b :=
  Char.ext (UInt32.ext h)

theorem strLtB_asymm : ∀ {a b : Str}, strLtB a b = true → strLtB b a = false
  | [], [], h => by simp [strLtB] at h
  | [], _ :: _, _ => by simp [strLtB]
  | _ :: _, [], h => by simp [strLtB] at h
  | a :: as, b :: bs, h => by
    simp only [strLtB] at h ⊢
    rcases Nat.lt_trichotomy a.toNat b.toNat with hab | hab | hab
    · simp [hab, Nat.not_lt.mpr (Nat.le_of_lt hab)]
    · simp only [hab, Nat.lt_irrefl, if_false] at h ⊢
      exact strLtB_asymm h
    · simp [hab, Nat.not_lt.mpr (Nat.le_of_lt hab)] at h

theorem strLtB_eq_of_not : ∀ {a b : Str}, strLtB a b = false → strLtB b a = false → a = b
  | [], [], _, _ => rfl
  | [], _ :: _, h, _ => by simp [strLtB] at h
  | _ :: _, [], _, h => by simp [strLtB] at h
  | a :: as, b :: bs, h1, h2 => by
    simp only [strLtB] at h1 h2
    rcases Nat.lt_trichotomy a.toNat b.toNat with hab | hab | hab
    · simp [hab] at h1
    · simp only [hab, Nat.lt_irrefl, if_false] at h1 h2
      rw [charEq_of_toNat hab, strLtB_eq_of_not h1 h2]
    · simp [hab] at h2

theorem strLtB_le_trans : ∀ {a b c : Str}, strLtB b a = false → strLtB c b = false →
    strLtB c a = false
  | a, b, [], h1, h2 => by
    cases b with
    | nil =>
      cases a with
      | nil => rfl
      | cons x xs => simp [strLtB] at h1
    | cons y ys => simp [strLtB] at h2
  | a, [], c :: cs, h1, _ => by
    cases a with
    | nil => rfl
    | cons x xs => simp [strLtB] at h1
  | [], b :: bs, c :: cs, _, _ => rfl
  | a :: as, b :: bs, c :: cs, h1, h2 => by
    simp only [strLtB] at h1 h2 ⊢
    have hba : ¬ b.toNat < a.toNat := by
      intro hx
      simp [hx] at h1
    have hcb : ¬ c.toNat < b.toNat := by
      intro hx
      simp [hx] at h2
    have hca : ¬ c.toNat < a.toNat := by omega
    rw [if_neg hca]
    by_cases hac : a.toNat < c.toNat
    · rw [if_pos hac]
    · rw [if_neg hac]
      rw [if_neg hba, if_neg (by omega : ¬ a.toNat < b.toNat)] at h1
      rw [if_neg hcb, if_neg (by omega : ¬ b.toNat < c.toNat)] at h2
      exact strLtB_le_trans h1 h2

theorem mem_insSorted {k x : Str} {l : List Str} : k ∈ insSorted x l ↔ k = x ∨ k ∈ l := by
  induction l with
  | nil => simp [insSorted]
  | cons y ys ih =>
    simp only [insSorted]
    by_cases hyx : strLtB y x = true
    · rw [if_pos hyx, List.mem_cons, ih, List.mem_cons]
      tauto
    · rw [if_neg hyx, List.mem_cons, List.mem_cons]

theorem mem_sortStrs {k : Str} {l : List Str} : k ∈ sortStrs l ↔ k ∈ l := by
  induction l with
  | nil => simp [sortStrs]
  | cons x xs ih =>
    show k ∈ insSorted x (sortStrs xs) ↔ _
    rw [mem_insSorted, ih, List.mem_cons]

theorem pairwise_insSorted {x : Str} :
    ∀ {l : List Str}, l.Pairwise (fun a b => strLtB b a = false) →
      (insSorted x l).Pairwise (fun a b => strLtB b a = false)
  | [], _ => by simp [insSorted]
  | y :: ys, h => by
    rw [List.pairwise_cons] at h
    simp only [insSorted]
    by_cases hyx : strLtB y x = true
    · rw [if_pos hyx, List.pairwise_cons]
      refine ⟨fun z hz => ?_, pairwise_insSorted h.2⟩
      rcases mem_insSorted.mp hz with hzx | hzy
      · rw [hzx]
        exact strLtB_asymm hyx
      · exact h.1 z hzy
    · rw [if_neg hyx, List.pairwise_cons]
      have hyxf : strLtB y x = false := by
        revert hyx
        cases strLtB y x <;> simp
      refine ⟨fun z hz => ?_, List.pairwise_cons.mpr h⟩
      rcases List.mem_cons.mp hz with hzy | hzys
      · rw [hzy]
        exact hyxf
      · exact strLtB_le_trans hyxf (h.1 z hzys)

theorem sortStrs_pairwise : ∀ (l : List Str),
    (sortStrs l).Pairwise (fun a b => strLtB b a = false)
  | [] => by simp [sortStrs]
  | x :: xs => pairwise_insSorted (x := x) (sortStrs_pairwise xs)

theorem memStr_iff {k : Str} : ∀ {l : List Str}, memStr k l = true ↔ k ∈ l
  | [] => by simp [memStr]
  | x :: xs => by
    simp only [memStr, List.mem_cons]
    by_cases hx : x = k
    · simp [hx]
    · simp only [hx, if_false]
      rw [memStr_iff]
      constructor
      · exact Or.inr
      · rintro (hk | hk)
        · exact absurd hk.symm hx
        · exact hk

theorem lookupKey_isSome_iff {β : Type} {k : Str} :
    ∀ {m : List (Str × β)}, (lookupKey k m).isSome = true ↔ k ∈ keysOf m
  | [] => by simp [lookupKey, keysOf]
  | kv :: rest => by
    simp only [lookupKey, keysOf, List.map_cons, List.mem_cons]
    by_cases hk : kv.1 = k
    · rw [if_pos hk]
      constructor
      · intro _
        exact Or.inl hk.symm
      · intro _
        rfl
    · simp only [hk, if_false]
      rw [lookupKey_isSome_iff]
      simp only [keysOf]
      constructor
      · exact Or.inr
      · rintro (h | h)
        · exact absurd h.symm hk
        · exact h

theorem lookupKey_mem {β : Type} {k : Str} {v : β} :
    ∀ {m : List (Str × β)}, lookupKey k m = some v → (k, v) ∈ m
  | [], h => by simp [lookupKey] at h
  | kv :: rest, h => by
    simp only [lookupKey] at h
    by_cases hk : kv.1 = k
    · rw [if_pos hk] at h
      have hv : kv.2 = v := by injection h
      have hkv : kv = (k, v) := by
        obtain ⟨k1, v1⟩ := kv
        simp only at hk hv
        rw [hk, hv]
      rw [← hkv]
      exact List.mem_cons_self kv rest
    · rw [if_neg hk] at h
      exact List.mem_cons_of_mem _ (lookupKey_mem h)

theorem mem_keysOf_of_mem {β : Type} {kv : Str × β} {m : List (Str × β)} (h : kv ∈ m) :
    kv.1 ∈ keysOf m :=
  List.mem_map.mpr ⟨kv, h, rfl⟩

theorem lookupKey_replace_self {β : Type} (k' : Str) (v : β) :
    ∀ (m : List (Str × β)),
    lookupKey k' (m.map (fun kv => if kv.1 = k' then (k', v) else kv)) =
      if memStr k' (keysOf m) then some v else none
  | [] => by simp [lookupKey, memStr, keysOf]
  | kv :: rest => by
    simp only [List.map_cons, lookupKey, keysOf, memStr]
    by_cases h1 : kv.1 = k'
    · simp [h1, lookupKey]
    · simp only [h1, if_false, lookupKey]
      rw [lookupKey_replace_self k' v rest]
      simp [keysOf]

theorem lookupKey_replace_other {β : Type} (k k' : Str) (v : β) (hkk : k' ≠ k) :
    ∀ (m : List (Str × β)),
    lookupKey k (m.map (fun kv => if kv.1 = k' then (k', v) else kv)) = lookupKey k m
  | [] => rfl
  | kv :: rest => by
    simp only [List.map_cons, lookupKey]
    by_cases h1 : kv.1 = k'
    · simp only [h1, if_true, lookupKey]
      rw [if_neg hkk, if_neg (h1 ▸ hkk), lookupKey_replace_other k k' v hkk rest]
    · simp only [h1, if_false, lookupKey]
      by_cases h2 : kv.1 = k
      · simp [h2]
      · simp only [h2, if_false]
        exact lookupKey_replace_other k k' v hkk rest

theorem lookupKey_append {β : Type} (k : Str) :
    ∀ (m m2 : List (Str × β)),
    lookupKey k (m ++ m2) =
      (match lookupKey k m with
       | some v => some v
       | none => lookupKey k m2)
  | [], m2 => rfl
  | kv :: rest, m2 => by
    simp only [List.cons_append, lookupKey]
    by_cases h : kv.1 = k
    · simp [h]
    · simp only [h, if_false]
      exact lookupKey_append k rest m2

theorem lookupKey_dinsert {β : Type} (k k' : Str) (v : β) (m : List (Str × β)) :
    lookupKey k (dinsert k' v m) = if k' = k then some v else lookupKey k m := by
  unfold dinsert
  by_cases hmem : memStr k' (m.map (fun kv => kv.1)) = true
  · rw [if_pos hmem]
    by_cases hkk : k' = k
    · subst hkk
      rw [lookupKey_replace_self, if_pos (by simpa [keysOf] using hmem), if_pos rfl]
    · rw [lookupKey_replace_other k k' v hkk, if_neg hkk]
  · rw [if_neg hmem, lookupKey_append]
    by_cases hkk : k' = k
    · subst hkk
      have : lookupKey k' m = none := by
        by_contra hco
        have : (lookupKey k' m).isSome = true := by
          cases hl : lookupKey k' m
          · exact absurd hl hco
          · simp
        have := lookupKey_isSome_iff.mp this
        rw [← memStr_iff] at this
        exact hmem (by simpa [keysOf] using this)
      simp [this, lookupKey]
    · cases hl : lookupKey k m
      · simp [lookupKey, hkk, Ne.symm hkk]
      · simp [hkk]

theorem getLast?_cons {α : Type} (a : α) (l : List α) :
    (a :: l).getLast? =
      (match l.getLast? with
       | some x => some x
       | none => some a) := by
  induction l with
  | nil => rfl
  | cons b t _ =>
    rw [List.getLast?_cons_cons]
    cases hbt : (b :: t).getLast? with
    | none =>
      have h2 := (List.getLast?_isSome (l := b :: t)).mpr (by simp)
      rw [hbt] at h2
      simp at h2
    | some x => rfl

theorem lookupKey_foldIns {β : Type} (k : Str) :
    ∀ (kvs : List (Str × β)) (acc : List (Str × β)),
    lookupKey k (foldIns kvs acc) =
      (match (kvs.filter (fun kv => decide (kv.1 = k))).getLast? with
       | some kv => some kv.2
       | none => lookupKey k acc)
  | [], acc => rfl
  | w :: ws, acc => by
    show lookupKey k (foldIns ws (dinsert w.1 w.2 acc)) = _
    rw [lookupKey_foldIns k ws (dinsert w.1 w.2 acc), lookupKey_dinsert]
    by_cases hw : w.1 = k
    · rw [List.filter_cons_of_pos (by simp [hw]), getLast?_cons]
      cases hlast : (ws.filter (fun kv => decide (kv.1 = k))).getLast? with
      | none => simp [hw]
      | some kv => simp
    · rw [List.filter_cons_of_neg (by simp [hw])]
      cases hlast : (ws.filter (fun kv => decide (kv.1 = k))).getLast? with
      | none => simp [hw]
      | some kv => simp

theorem keysOf_append {β : Type} (m m2 : List (Str × β)) :
    keysOf (m ++ m2) = keysOf m ++ keysOf m2 := by
  simp [keysOf]

theorem keysOf_dinsert_of_mem {β : Type} {k : Str} (v : β) {m : List (Str × β)}
    (hmem : memStr k (keysOf m) = true) : keysOf (dinsert k v m) = keysOf m := by
  unfold dinsert
  rw [if_pos (by simpa [keysOf] using hmem)]
  unfold keysOf
  rw [List.map_map]
  apply List.map_congr_left
  intro kv _
  by_cases hk : kv.1 = k
  · simp [hk]
  · simp [hk]

theorem nodupKeys_dinsert {β : Type} (k : Str) (v : β) (m : List (Str × β))
    (h : (keysOf m).Nodup) : (keysOf (dinsert k v m)).Nodup := by
  by_cases hmem : memStr k (keysOf m) = true
  · rw [keysOf_dinsert_of_mem v hmem]
    exact h
  · unfold dinsert
    rw [if_neg (by simpa [keysOf] using hmem), keysOf_append]
    rw [List.nodup_append]
    refine ⟨h, by simp [keysOf], ?_⟩
    rw [show keysOf [(k, v)] = [k] from rfl, List.disjoint_singleton]
    intro hk
    exact hmem (memStr_iff.mpr hk)

theorem nodupKeys_foldIns {β : Type} :
    ∀ (kvs : List (Str × β)) (acc : List (Str × β)), (keysOf acc).Nodup →
      (keysOf (foldIns kvs acc)).Nodup
  | [], _, h => h
  | w :: ws, acc, h =>
    nodupKeys_foldIns ws (dinsert w.1 w.2 acc) (nodupKeys_dinsert w.1 w.2 acc h)

theorem mem_dinsert {β : Type} {p : Str × β} {k : Str} {v : β} {m : List (Str × β)}
    (h : p ∈ dinsert k v m) : p = (k, v) ∨ p ∈ m := by
  unfold dinsert at h
  by_cases hmem : memStr k (m.map (fun kv => kv.1)) = true
  · rw [if_pos hmem] at h
    rcases List.mem_map.mp h with ⟨kv, hkv, heq⟩
    by_cases hk : kv.1 = k
    · rw [if_pos hk] at heq
      exact Or.inl heq.symm
    · rw [if_neg hk] at heq
      exact Or.inr (heq ▸ hkv)
  · rw [if_neg hmem] at h
    rcases List.mem_append.mp h with h2 | h2
    · exact Or.inr h2
    · exact Or.inl (List.mem_singleton.mp h2)

theorem mem_foldIns {β : Type} {p : Str × β} :
    ∀ {kvs acc : List (Str × β)}, p ∈ foldIns kvs acc → p ∈ acc ∨ p ∈ kvs
  | [], _, h => Or.inl h
  | w :: ws, acc, h => by
    have : p ∈ dinsert w.1 w.2 acc ∨ p ∈ ws := mem_foldIns h
    rcases this with h2 | h2
    · rcases mem_dinsert h2 with h3 | h3
      · right
        rw [h3]
        exact List.mem_cons_self w ws
      · exact Or.inl h3
    · exact Or.inr (List.mem_cons_of_mem w h2)

theorem countP_eq_one_of_nodup {k : Str} :
    ∀ {l : List Str}, l.Nodup → k ∈ l → l.countP (fun x => decide (x = k)) = 1 := by
  intro l
  induction l with
  | nil => intro _ h; simp at h
  | cons x xs ih =>
    intro hn hm
    rw [List.nodup_cons] at hn
    by_cases hx : x = k
    · rw [List.countP_cons_of_pos _ _ (by simp [hx])]
      have : xs.countP (fun x => decide (x = k)) = 0 := by
        rw [List.countP_eq_zero]
        intro a ha
        simp only [decide_eq_true_eq]
        intro hak
        apply hn.1
        rw [hx, ← hak]
        exact ha
      rw [this]
    · rw [List.countP_cons_of_neg _ _ (by simp [hx])]
      rcases List.mem_cons.mp hm with h | h
      · exact absurd h.symm hx
      · exact ih hn.2 h

theorem mapOption_length {α β : Type} {f : α → Option β} :
    ∀ {l : List α} {l2 : List β}, mapOption f l = some l2 → l2.length = l.length
  | [], l2, h => by
    simp only [mapOption] at h
    cases h
    rfl
  | a :: as, l2, h => by
    simp only [mapOption] at h
    cases hfa : f a with
    | none => rw [hfa] at h; exact absurd h (by simp)
    | some b =>
      rw [hfa] at h
      cases hrest : mapOption f as with
      | none => rw [hrest] at h; exact absurd h (by simp)
      | some bs =>
        rw [hrest] at h
        cases h
        simp [mapOption_length hrest]

theorem mapOption_get {α β : Type} {f : α → Option β} :
    ∀ {l : List α} {l2 : List β}, mapOption f l = some l2 →
      ∀ (i : Nat) (hi : i < l.length) (hi2 : i < l2.length),
        f (l.get ⟨i, hi⟩) = some (l2.get ⟨i, hi2⟩)
  | [], l2, h => by
    intro i hi
    simp at hi
  | a :: as, l2, h => by
    simp only [mapOption] at h
    cases hfa : f a with
    | none => rw [hfa] at h; exact absurd h (by simp)
    | some b =>
      rw [hfa] at h
      cases hrest : mapOption f as with
      | none => rw [hrest] at h; exact absurd h (by simp)
      | some bs =>
        rw [hrest] at h
        cases h
        intro i hi hi2
        cases i with
        | zero => exact hfa
        | succ j =>
          exact mapOption_get hrest j (by simpa using hi) (by simpa using hi2)

theorem mapOption_isSome {α β : Type} {f : α → Option β} :
    ∀ {l : List α}, (∀ a ∈ l, (f a).isSome = true) → (mapOption f l).isSome = true
  | [], _ => rfl
  | a :: as, h => by
    simp only [mapOption]
    cases hfa : f a with
    | none =>
      have := h a (List.mem_cons_self a as)
      rw [hfa] at this
      exact absurd this (by simp)
    | some b =>
      cases hrest : mapOption f as with
      | none =>
        have := mapOption_isSome (fun a ha => h a (List.mem_cons_of_mem _ ha))
        rw [hrest] at this
        exact absurd this (by simp)
      | some bs => simp

theorem startsWithB_iff : ∀ {n h : Str}, startsWithB n h = true ↔ ∃ t, h = n ++ t
  | [], h => by simp [startsWithB]
  | a :: as, [] => by
    simp only [startsWithB]
    constructor
    · intro hf
      exact absurd hf (by simp)
    · rintro ⟨t, ht⟩
      simp at ht
  | a :: as, b :: bs => by
    simp only [startsWithB]
    by_cases hab : a = b
    · rw [if_pos hab]
      rw [startsWithB_iff]
      constructor
      · rintro ⟨t, ht⟩
        exact ⟨t, by rw [hab, ht]; rfl⟩
      · rintro ⟨t, ht⟩
        rw [List.cons_append] at ht
        exact ⟨t, by injection ht⟩
    · rw [if_neg hab]
      constructor
      · intro hf
        exact absurd hf (by simp)
      · rintro ⟨t, ht⟩
        rw [List.cons_append] at ht
        injection ht with h1 _
        exact absurd h1.symm hab

theorem containsSub_iff : ∀ {n h : Str}, containsSub n h = true ↔ SubStr n h
  | n, [] => by
    simp only [containsSub, SubStr]
    constructor
    · intro he
      refine ⟨[], [], ?_⟩
      rw [List.isEmpty_iff] at he
      simp [he]
    · rintro ⟨l, r, hlr⟩
      have := List.append_eq_nil.mp hlr.symm
      have := List.append_eq_nil.mp this.1
      simp [this.2]
  | n, c :: rest => by
    simp only [containsSub, Bool.or_eq_true]
    constructor
    · rintro (hs | hc)
      · rcases startsWithB_iff.mp hs with ⟨t, ht⟩
        exact ⟨[], t, by simp [ht]⟩
      · rcases containsSub_iff.mp hc with ⟨l, r, hlr⟩
        exact ⟨c :: l, r, by simp [hlr]⟩
    · rintro ⟨l, r, hlr⟩
      cases l with
      | nil =>
        left
        rw [startsWithB_iff]
        exact ⟨r, by simpa using hlr⟩
      | cons x xs =>
        right
        rw [containsSub_iff]
        rw [List.cons_append, List.cons_append] at hlr
        injection hlr with _ h2
        exact ⟨xs, r, h2⟩

theorem segments_length : ∀ (ms : List (Str × Nat)) (L : Nat),
    (segments ms L).length = ms.length
  | [], _ => rfl
  | [(cid, s)], _ => rfl
  | (cid, s) :: m2 :: rest, L => by
    show ((cid, s, m2.2) :: segments (m2 :: rest) L).length = _
    simp [segments_length (m2 :: rest) L]

theorem segments_get? : ∀ (ms : List (Str × Nat)) (L : Nat) (i : Nat) (cid : Str) (s : Nat),
    ms.get? i = some (cid, s) →
    (segments ms L).get? i = some (cid, s,
      (match ms.get? (i + 1) with
       | some m2 => m2.2
       | none => L))
  | [], _, i, _, _, h => by simp at h
  | [(c1, s1)], L, i, cid, s, h => by
    cases i with
    | zero =>
      simp only [List.get?] at h
      injection h with h1
      injection h1 with h2 h3
      subst h2
      subst h3
      rfl
    | succ j => simp at h
  | (c1, s1) :: m2 :: rest, L, i, cid, s, h => by
    cases i with
    | zero =>
      simp only [List.get?] at h
      injection h with h1
      injection h1 with h2 h3
      subst h2
      subst h3
      rfl
    | succ j =>
      show (segments (m2 :: rest) L).get? j = _
      exact segments_get? (m2 :: rest) L j cid s h

theorem segments_mem : ∀ (ms : List (Str × Nat)) (L : Nat),
    List.Chain' (fun a b => a.2 + a.1.length ≤ b.2) ms →
    (∀ mp ∈ ms, mp.2 + mp.1.length ≤ L) →
    ∀ seg ∈ segments ms L, (seg.1, seg.2.1) ∈ ms ∧ seg.2.1 + seg.1.length ≤ seg.2.2 ∧
      seg.2.2 ≤ L
  | [], _, _, _ => by simp [segments]
  | [(c1, s1)], L, _, hbound => by
    intro seg hseg
    rcases List.mem_singleton.mp hseg with rfl
    refine ⟨List.mem_singleton.mpr rfl, ?_, Nat.le_refl L⟩
    exact hbound (c1, s1) (List.mem_singleton.mpr rfl)
  | (c1, s1) :: m2 :: rest, L, hchain, hbound => by
    intro seg hseg
    rw [List.chain'_cons] at hchain
    rcases List.mem_cons.mp hseg with rfl | htail
    · refine ⟨List.mem_cons_self _ _, hchain.1, ?_⟩
      have := hbound m2 (List.mem_cons_of_mem _ (List.mem_cons_self m2 rest))
      show m2.2 ≤ L
      omega
    · have := segments_mem (m2 :: rest) L hchain.2
        (fun mp hmp => hbound mp (List.mem_cons_of_mem _ hmp)) seg htail
      exact ⟨List.mem_cons_of_mem _ this.1, this.2⟩

theorem isWordChar_of_digitB {c : Char} (h : isDigitB c = true) : isWordChar c = true := by
  simp only [isDigitB, decide_eq_true_eq] at h
  simp only [isWordChar, decide_eq_true_eq]
  omega

theorem pySpace_of_digitB {c : Char} (h : isDigitB c = true) : pySpace c = false := by
  cases hp : pySpace c with
  | false => rfl
  | true =>
    simp only [isDigitB, decide_eq_true_eq] at h
    simp only [pySpace, decide_eq_true_eq] at hp
    omega

theorem isWordChar_of_upperB {c : Char} (h : isUpperB c = true) : isWordChar c = true := by
  simp only [isUpperB, decide_eq_true_eq] at h
  simp only [isWordChar, decide_eq_true_eq]
  omega

theorem pySpace_of_upperB {c : Char} (h : isUpperB c = true) : pySpace c = false := by
  cases hp : pySpace c with
  | false => rfl
  | true =>
    simp only [isUpperB, decide_eq_true_eq] at h
    simp only [pySpace, decide_eq_true_eq] at hp
    omega

theorem matchIdCore_append_seven {d1 d2 d3 d4 : Char} (h1 : isDigitB d1 = true)
    (h2 : isDigitB d2 = true) (h3 : isDigitB d3 = true) (h4 : isDigitB d4 = true) :
    ∀ r : Str, noWordAfter r = true →
      (matchIdCore (['F', 'K', d1, '.', d2, d3, d4] ++ r)).isSome = true := by
  intro r hr
  have hdig : (isDigitB d1 && isDigitB d2 && isDigitB d3 && isDigitB d4) = true := by
    simp [h1, h2, h3, h4]
  rcases r with _ | ⟨c, _ | ⟨u, r2⟩⟩
  · show (matchIdCore ('F' :: 'K' :: d1 :: '.' :: d2 :: d3 :: d4 :: [])).isSome = true
    simp only [matchIdCore]
    rw [if_pos hdig]
    rfl
  · show (matchIdCore ('F' :: 'K' :: d1 :: '.' :: d2 :: d3 :: d4 :: [c])).isSome = true
    simp only [matchIdCore]
    rw [if_pos hdig, if_pos hr]
    rfl
  · show (matchIdCore ('F' :: 'K' :: d1 :: '.' :: d2 :: d3 :: d4 :: c :: u :: r2)).isSome =
      true
    simp only [matchIdCore]
    rw [if_pos hdig]
    by_cases hcu : c = '-' ∧ isUpperB u = true ∧ noWordAfter r2 = true
    · rw [if_pos hcu]
      rfl
    · rw [if_neg hcu, if_pos hr]
      rfl

theorem matchIdCore_append_nine {d1 d2 d3 d4 u : Char} (h1 : isDigitB d1 = true)
    (h2 : isDigitB d2 = true) (h3 : isDigitB d3 = true) (h4 : isDigitB d4 = true)
    (hu : isUpperB u = true) :
    ∀ r : Str, noWordAfter r = true →
      (matchIdCore (['F', 'K', d1, '.', d2, d3, d4, '-', u] ++ r)).isSome = true := by
  intro r hr
  have hdig : (isDigitB d1 && isDigitB d2 && isDigitB d3 && isDigitB d4) = true := by
    simp [h1, h2, h3, h4]
  show (matchIdCore ('F' :: 'K' :: d1 :: '.' :: d2 :: d3 :: d4 :: '-' :: u :: r)).isSome =
    true
  simp only [matchIdCore]
  rw [if_pos hdig, if_pos (by simp [hu, hr])]
  rfl

theorem getLast?_seven {d1 d2 d3 d4 : Char} :
    (['F', 'K', d1, '.', d2, d3, d4] : Str).getLast? = some d4 := rfl

theorem getLast?_nine {d1 d2 d3 d4 u : Char} :
    (['F', 'K', d1, '.', d2, d3, d4, '-', u] : Str).getLast? = some u := rfl

theorem matchIdCore_spec : ∀ {l m : Str}, matchIdCore l = some m →
    (∃ rest, l = m ++ rest ∧ noWordAfter rest = true) ∧ 7 ≤ m.length ∧ IdTokenFacts m := by
  intro l m h
  unfold matchIdCore at h
  split at h
  case h_2 => exact absurd h (by simp)
  case h_1 d1 d2 d3 d4 rest =>
    by_cases hdig : (isDigitB d1 && isDigitB d2 && isDigitB d3 && isDigitB d4) = true
    case neg =>
      rw [if_neg hdig] at h
      exact absurd h (by simp)
    case pos =>
      rw [if_pos hdig] at h
      have hd : isDigitB d1 = true ∧ isDigitB d2 = true ∧ isDigitB d3 = true ∧
          isDigitB d4 = true := by
        simpa [Bool.and_eq_true, and_assoc] using hdig
      obtain ⟨hd1, hd2, hd3, hd4⟩ := hd
      rcases rest with _ | ⟨c, _ | ⟨u, r2⟩⟩
      · have h2 : (if noWordAfter [] then
            some (['F', 'K', d1, '.', d2, d3, d4] : Str) else none) = some m := h
        rw [if_pos (show noWordAfter [] = true from rfl)] at h2
        injection h2 with h3
        subst h3
        refine ⟨⟨[], by simp, rfl⟩, by simp, ?_, ?_, ?_⟩
        · exact ⟨'F', _, rfl, by decide⟩
        · exact ⟨d4, getLast?_seven, isWordChar_of_digitB hd4, pySpace_of_digitB hd4⟩
        · exact matchIdCore_append_seven hd1 hd2 hd3 hd4
      · have h2 : (if noWordAfter [c] then
            some (['F', 'K', d1, '.', d2, d3, d4] : Str) else none) = some m := h
        by_cases hnw : noWordAfter [c] = true
        · rw [if_pos hnw] at h2
          injection h2 with h3
          subst h3
          refine ⟨⟨[c], by simp, hnw⟩, by simp, ?_, ?_, ?_⟩
          · exact ⟨'F', _, rfl, by decide⟩
          · exact ⟨d4, getLast?_seven, isWordChar_of_digitB hd4, pySpace_of_digitB hd4⟩
          · exact matchIdCore_append_seven hd1 hd2 hd3 hd4
        · rw [if_neg hnw] at h2
          exact absurd h2 (by simp)
      · have h2 : (if c = '-' ∧ isUpperB u = true ∧ noWordAfter r2 = true then
            some (['F', 'K', d1, '.', d2, d3, d4, '-', u] : Str)
          else if noWordAfter (c :: u :: r2) then
            some (['F', 'K', d1, '.', d2, d3, d4] : Str) else none) = some m := h
        by_cases hcu : c = '-' ∧ isUpperB u = true ∧ noWordAfter r2 = true
        · rw [if_pos hcu] at h2
          injection h2 with h3
          subst h3
          obtain ⟨hc, hu, hr2⟩ := hcu
          subst hc
          refine ⟨⟨r2, by simp, hr2⟩, by simp, ?_, ?_, ?_⟩
          · exact ⟨'F', _, rfl, by decide⟩
          · exact ⟨u, getLast?_nine, isWordChar_of_upperB hu, pySpace_of_upperB hu⟩
          · exact matchIdCore_append_nine hd1 hd2 hd3 hd4 hu
        · rw [if_neg hcu] at h2
          by_cases hnw : noWordAfter (c :: u :: r2) = true
          · rw [if_pos hnw] at h2
            injection h2 with h3
            subst h3
            refine ⟨⟨c :: u :: r2, by simp, hnw⟩, by simp, ?_, ?_, ?_⟩
            · exact ⟨'F', _, rfl, by decide⟩
            · exact ⟨d4, getLast?_seven, isWordChar_of_digitB hd4, pySpace_of_digitB hd4⟩
            · exact matchIdCore_append_seven hd1 hd2 hd3 hd4
          · rw [if_neg hnw] at h2
            exact absurd h2 (by simp)

theorem drop_cons_of_lt {c : Char} {rest : Str} {pos p : Nat} (hlt : pos + 1 ≤ p) :
    (c :: rest).drop (p - pos) = rest.drop (p - (pos + 1)) := by
  rw [show p - pos = (p - (pos + 1)) + 1 by omega]
  rfl

theorem scanAux_unfold_zero (c : Char) (rest : Str) (pos : Nat) :
    scanAux (c :: rest) pos 0 false =
      (match matchIdCore (c :: rest) with
       | some m0 => (m0, pos) :: scanAux rest (pos + 1) (m0.length - 1) true
       | none => scanAux rest (pos + 1) 0 (isWordChar c)) := rfl

theorem scanAux_spec : ∀ (l : Str) (pos skip : Nat) (prevW : Bool) (m : Str) (p : Nat),
    (m, p) ∈ scanAux l pos skip prevW →
    pos ≤ p ∧ p + m.length ≤ pos + l.length ∧
    ∃ rest2, l.drop (p - pos) = m ++ rest2 ∧ noWordAfter rest2 = true ∧ IdTokenFacts m ∧
      7 ≤ m.length
  | [], pos, skip, prevW, m, p, h => by simp [scanAux] at h
  | c :: rest, pos, skip + 1, prevW, m, p, h => by
    have h2 : (m, p) ∈ scanAux rest (pos + 1) skip (isWordChar c) := h
    obtain ⟨ih1, ih2, r2, ih3, ih4, ih5, ih6⟩ := scanAux_spec rest (pos + 1) skip _ m p h2
    refine ⟨by omega, ?_, r2, ?_, ih4, ih5, ih6⟩
    · simp only [List.length_cons]
      omega
    · rw [drop_cons_of_lt ih1]
      exact ih3
  | c :: rest, pos, 0, prevW, m, p, h => by
    cases prevW with
    | true =>
      have h2 : (m, p) ∈ scanAux rest (pos + 1) 0 (isWordChar c) := h
      obtain ⟨ih1, ih2, r2, ih3, ih4, ih5, ih6⟩ := scanAux_spec rest (pos + 1) 0 _ m p h2
      refine ⟨by omega, ?_, r2, ?_, ih4, ih5, ih6⟩
      · simp only [List.length_cons]
        omega
      · rw [drop_cons_of_lt ih1]
        exact ih3
    | false =>
      rw [scanAux_unfold_zero] at h
      cases hmc : matchIdCore (c :: rest) with
      | none =>
        rw [hmc] at h
        obtain ⟨ih1, ih2, r2, ih3, ih4, ih5, ih6⟩ := scanAux_spec rest (pos + 1) 0 _ m p h
        refine ⟨by omega, ?_, r2, ?_, ih4, ih5, ih6⟩
        · simp only [List.length_cons]
          omega
        · rw [drop_cons_of_lt ih1]
          exact ih3
      | some m0 =>
        rw [hmc] at h
        rcases List.mem_cons.mp h with heq | htail
        · injection heq with hm hp
          subst hm
          subst hp
          obtain ⟨⟨r0, hr0eq, hr0nw⟩, hlen7, hfacts⟩ := matchIdCore_spec hmc
          have hlen : (c :: rest).length = m.length + r0.length := by
            rw [hr0eq, List.length_append]
          refine ⟨Nat.le_refl p, by omega, r0, ?_, hr0nw, hfacts, hlen7⟩
          rw [Nat.sub_self, List.drop_zero]
          exact hr0eq
        · obtain ⟨ih1, ih2, r2, ih3, ih4, ih5, ih6⟩ :=
            scanAux_spec rest (pos + 1) (m0.length - 1) true m p htail
          refine ⟨by omega, ?_, r2, ?_, ih4, ih5, ih6⟩
          · simp only [List.length_cons]
            omega
          · rw [drop_cons_of_lt ih1]
            exact ih3

theorem scanAux_lb : ∀ (l : Str) (pos skip : Nat) (prevW : Bool) (m : Str) (p : Nat),
    (m, p) ∈ scanAux l pos skip prevW → pos + skip ≤ p
  | [], pos, skip, prevW, m, p, h => by simp [scanAux] at h
  | c :: rest, pos, skip + 1, prevW, m, p, h => by
    have h2 : (m, p) ∈ scanAux rest (pos + 1) skip (isWordChar c) := h
    have := scanAux_lb rest (pos + 1) skip _ m p h2
    omega
  | c :: rest, pos, 0, prevW, m, p, h => by
    cases prevW with
    | true =>
      have h2 : (m, p) ∈ scanAux rest (pos + 1) 0 (isWordChar c) := h
      have := scanAux_lb rest (pos + 1) 0 _ m p h2
      omega
    | false =>
      rw [scanAux_unfold_zero] at h
      cases hmc : matchIdCore (c :: rest) with
      | none =>
        rw [hmc] at h
        have := scanAux_lb rest (pos + 1) 0 _ m p h
        omega
      | some m0 =>
        rw [hmc] at h
        rcases List.mem_cons.mp h with heq | htail
        · injection heq with _ hp
          omega
        · have := scanAux_lb rest (pos + 1) (m0.length - 1) true m p htail
          omega

theorem scanAux_chain : ∀ (l : Str) (pos skip : Nat) (prevW : Bool),
    List.Chain' (fun a b => a.2 + a.1.length ≤ b.2) (scanAux l pos skip prevW)
  | [], _, _, _ => List.chain'_nil
  | c :: rest, pos, skip + 1, prevW => scanAux_chain rest (pos + 1) skip (isWordChar c)
  | c :: rest, pos, 0, prevW => by
    cases prevW with
    | true => exact scanAux_chain rest (pos + 1) 0 (isWordChar c)
    | false =>
      rw [scanAux_unfold_zero]
      cases hmc : matchIdCore (c :: rest) with
      | none => exact scanAux_chain rest (pos + 1) 0 (isWordChar c)
      | some m0 =>
        rw [List.chain'_cons']
        refine ⟨?_, scanAux_chain rest (pos + 1) (m0.length - 1) true⟩
        intro y hy
        have hmem : y ∈ scanAux rest (pos + 1) (m0.length - 1) true :=
          List.mem_of_mem_head? hy
        have hlb := scanAux_lb rest (pos + 1) (m0.length - 1) true y.1 y.2 hmem
        have hlen := (matchIdCore_spec hmc).2.1
        show pos + m0.length ≤ y.2
        omega

theorem courseIdMatches_spec {text m : Str} {p : Nat} (h : (m, p) ∈ courseIdMatches text) :
    p + m.length ≤ text.length ∧ ∃ rest2, text.drop p = m ++ rest2 ∧
      noWordAfter rest2 = true ∧ IdTokenFacts m ∧ 7 ≤ m.length := by
  obtain ⟨_, h2, r2, h3, h4, h5, h6⟩ := scanAux_spec text 0 0 false m p h
  refine ⟨by simpa using h2, r2, ?_, h4, h5, h6⟩
  simpa using h3

theorem courseIdMatches_chain (text : Str) :
    List.Chain' (fun a b => a.2 + a.1.length ≤ b.2) (courseIdMatches text) :=
  scanAux_chain text 0 0 false

theorem courseIdMatches_bound {text : Str} :
    ∀ mp ∈ courseIdMatches text, mp.2 + mp.1.length ≤ text.length :=
  fun mp hmp => by simpa using (scanAux_spec text 0 0 false mp.1 mp.2 hmp).2.1

theorem dropWhile_sfx {α : Type} (p : α → Bool) : ∀ (l : List α), ∃ t, t ++ l.dropWhile p = l
  | [] => ⟨[], rfl⟩
  | a :: l => by
    rw [List.dropWhile_cons]
    by_cases hpa : p a = true
    · rw [if_pos hpa]
      obtain ⟨t, ht⟩ := dropWhile_sfx p l
      exact ⟨a :: t, by rw [List.cons_append, ht]⟩
    · rw [if_neg hpa]
      exact ⟨[], rfl⟩

theorem trimRight_pre (l : Str) : ∃ t, trimRight l ++ t = l := by
  obtain ⟨t, ht⟩ := dropWhile_sfx pySpace l.reverse
  refine ⟨t.reverse, ?_⟩
  have h2 := congrArg List.reverse ht
  rw [List.reverse_append, List.reverse_reverse] at h2
  exact h2

theorem head?_of_pre {l1 t l : Str} (hp : l1 ++ t = l) (hne : l1 ≠ []) :
    l.head? = l1.head? := by
  cases l1 with
  | nil => exact absurd rfl hne
  | cons a r =>
    rw [← hp]
    rfl

theorem noWordAfter_congr {l1 l2 : Str} (h : l1.head? = l2.head?) :
    noWordAfter l1 = noWordAfter l2 := by
  cases l1 with
  | nil =>
    cases l2 with
    | nil => rfl
    | cons b t => simp at h
  | cons a s =>
    cases l2 with
    | nil => simp at h
    | cons b t =>
      have hab : a = b := by
        simpa using h
      rw [show noWordAfter (a :: s) = !isWordChar a from rfl, hab]
      rfl

theorem trimLeft_nospace {c : Char} {t : Str} (h : pySpace c = false) :
    trimLeft (c :: t) = c :: t := by
  unfold trimLeft
  rw [List.dropWhile_cons, h]
  rfl

theorem trim_decomp {m : Str} (hm : IdTokenFacts m) (mid : Str) :
    ∃ mid2, trimStr (m ++ mid) = m ++ mid2 ∧
      (noWordAfter mid = true → noWordAfter mid2 = true) := by
  obtain ⟨⟨c0, t0, hm0, hc0⟩, ⟨clast, hlast, _, hslast⟩, _⟩ := hm
  have hTL : trimLeft (m ++ mid) = m ++ mid := by
    rw [hm0, List.cons_append]
    exact trimLeft_nospace hc0
  unfold trimStr
  rw [hTL]
  by_cases hmidr : (List.dropWhile pySpace mid.reverse).isEmpty = true
  · have hmrev : List.dropWhile pySpace m.reverse = m.reverse := by
      have hrev : m.reverse.head? = some clast := by
        rw [List.head?_reverse]
        exact hlast
      cases hmr : m.reverse with
      | nil => rfl
      | cons a r =>
        rw [hmr] at hrev
        have ha : a = clast := by simpa using hrev
        rw [List.dropWhile_cons, ha, hslast]
        rfl
    have heq : trimRight (m ++ mid) = m := by
      unfold trimRight
      rw [List.reverse_append, List.dropWhile_append, if_pos hmidr, hmrev,
        List.reverse_reverse]
    exact ⟨[], by rw [heq, List.append_nil], fun _ => rfl⟩
  · have heq : trimRight (m ++ mid) =
        m ++ (List.dropWhile pySpace mid.reverse).reverse := by
      unfold trimRight
      rw [List.reverse_append, List.dropWhile_append, if_neg hmidr, List.reverse_append,
        List.reverse_reverse]
    refine ⟨(List.dropWhile pySpace mid.reverse).reverse, heq, ?_⟩
    intro hnwmid
    obtain ⟨t, ht⟩ := trimRight_pre mid
    have hne : (List.dropWhile pySpace mid.reverse).reverse ≠ [] := by
      intro hx
      rw [List.reverse_eq_nil_iff] at hx
      rw [List.isEmpty_iff] at hmidr
      exact hmidr hx
    have hh := head?_of_pre ht hne
    show noWordAfter (trimRight mid) = true
    rw [noWordAfter_congr hh.symm]
    exact hnwmid

theorem block_decomp {text cid : Str} {s e : Nat}
    (hmem : (cid, s) ∈ courseIdMatches text)
    (hse : s + cid.length ≤ e) (_heL : e ≤ text.length) :
    ∃ mid2, trimStr (sliceStr text s e) = cid ++ mid2 ∧ noWordAfter mid2 = true ∧
      IdTokenFacts cid := by
  obtain ⟨hband, rest2, hdrop, hnw, hfacts, hlen7⟩ := courseIdMatches_spec hmem
  have hslice : sliceStr text s e = cid ++ rest2.take (e - s - cid.length) := by
    unfold sliceStr
    rw [List.drop_take, hdrop, List.take_append_eq_append_take,
      List.take_of_length_le (by omega)]
  obtain ⟨mid2, htrim, htrans⟩ := trim_decomp hfacts (rest2.take (e - s - cid.length))
  refine ⟨mid2, by rw [hslice]; exact htrim, ?_, hfacts⟩
  apply htrans
  cases hk : e - s - cid.length with
  | zero => rfl
  | succ k2 =>
    cases rest2 with
    | nil => rfl
    | cons a r => exact hnw

theorem pdf_to_courses_eq_foldIns (text : Str) :
    pdf_to_courses text =
      foldIns ((segments (courseIdMatches text) text.length).map (recordOfSeg text)) [] := by
  unfold pdf_to_courses foldIns
  rw [List.foldl_map]
  rfl

theorem mem_pdf_to_courses {text k : Str} {c : Course} (h : (k, c) ∈ pdf_to_courses text) :
    ∃ seg ∈ segments (courseIdMatches text) text.length, (k, c) = recordOfSeg text seg := by
  rw [pdf_to_courses_eq_foldIns] at h
  rcases mem_foldIns h with h2 | h2
  · simp at h2
  · rcases List.mem_map.mp h2 with ⟨seg, hseg, heq⟩
    exact ⟨seg, hseg, heq.symm⟩

theorem titleScan_eq_findSome (cid : Str) :
    ∀ lns : List Str, titleScan cid lns = (lns.findSome? (titleCandidate cid)).getD []
  | [] => rfl
  | ln :: rest => by
    rw [List.findSome?_cons]
    show (if hasId ln then
        (let r := trimDash (subIds ln)
         if r ≠ [] ∧ lowerStr r ≠ lowerStr cid then r else titleScan cid rest)
      else if 6 ≤ ln.length then ln else titleScan cid rest) = _
    unfold titleCandidate
    by_cases h1 : hasId ln = true
    · rw [if_pos h1, if_pos h1]
      by_cases h2 : trimDash (subIds ln) ≠ [] ∧
          lowerStr (trimDash (subIds ln)) ≠ lowerStr cid
      · simp only [if_pos h2]
        rfl
      · simp only [if_neg h2]
        exact titleScan_eq_findSome cid rest
    · rw [if_neg h1, if_neg h1]
      by_cases h3 : 6 ≤ ln.length
      · rw [if_pos h3, if_pos h3]
        rfl
      · rw [if_neg h3, if_neg h3]
        exact titleScan_eq_findSome cid rest

theorem mem_added_ids {prev : List (Str × JsonDict)} {curr : List (Str × Course)} {k : Str} :
    k ∈ added_ids prev curr ↔ (k ∈ keysOf curr ∧ ¬ k ∈ keysOf prev) := by
  unfold added_ids
  rw [mem_sortStrs, List.mem_filter]
  constructor
  · rintro ⟨h1, h2⟩
    rw [Bool.not_eq_true'] at h2
    refine ⟨h1, fun hmem => ?_⟩
    rw [memStr_iff.mpr hmem] at h2
    exact absurd h2 (by simp)
  · rintro ⟨h1, h2⟩
    refine ⟨h1, ?_⟩
    rw [Bool.not_eq_true']
    cases hms : memStr k (keysOf prev)
    · rfl
    · exact absurd (memStr_iff.mp hms) h2

theorem mem_removed_ids {prev : List (Str × JsonDict)} {curr : List (Str × Course)}
    {k : Str} :
    k ∈ removed_ids prev curr ↔ (k ∈ keysOf prev ∧ ¬ k ∈ keysOf curr) := by
  unfold removed_ids
  rw [mem_sortStrs, List.mem_filter]
  constructor
  · rintro ⟨h1, h2⟩
    rw [Bool.not_eq_true'] at h2
    refine ⟨h1, fun hmem => ?_⟩
    rw [memStr_iff.mpr hmem] at h2
    exact absurd h2 (by simp)
  · rintro ⟨h1, h2⟩
    refine ⟨h1, ?_⟩
    rw [Bool.not_eq_true']
    cases hms : memStr k (keysOf curr)
    · rfl
    · exact absurd (memStr_iff.mp hms) h2

theorem courseOfDict_isSome_iff {d : JsonDict} :
    (courseOfDict d).isSome = true ↔
      (keysOf d).Perm [fieldCourseId, fieldTitle, fieldRaw] := by
  constructor
  · intro h
    unfold courseOfDict at h
    cases h1 : lookupKey fieldCourseId d with
    | none => rw [h1] at h; simp at h
    | some i =>
      cases h2 : lookupKey fieldTitle d with
      | none => rw [h1, h2] at h; simp at h
      | some t =>
        cases h3 : lookupKey fieldRaw d with
        | none => rw [h1, h2, h3] at h; simp at h
        | some r =>
          rw [h1, h2, h3] at h
          have h4 : (if d.length = 3 then some (Course.mk i t r) else none).isSome =
              true := h
          by_cases hlen : d.length = 3
          case neg => rw [if_neg hlen] at h4; simp at h4
          case pos =>
            have hm1 : fieldCourseId ∈ keysOf d :=
              lookupKey_isSome_iff.mp (by rw [h1]; rfl)
            have hm2 : fieldTitle ∈ keysOf d :=
              lookupKey_isSome_iff.mp (by rw [h2]; rfl)
            have hm3 : fieldRaw ∈ keysOf d :=
              lookupKey_isSome_iff.mp (by rw [h3]; rfl)
            have hsub : ([fieldCourseId, fieldTitle, fieldRaw] : List Str) ⊆ keysOf d := by
              intro x hx
              simp only [List.mem_cons, List.not_mem_nil, or_false] at hx
              rcases hx with rfl | rfl | rfl
              exacts [hm1, hm2, hm3]
            have hnd : ([fieldCourseId, fieldTitle, fieldRaw] : List Str).Nodup := by decide
            have hsp := List.Nodup.subperm hnd hsub
            have hlen2 : (keysOf d).length ≤ 3 := by
              unfold keysOf
              rw [List.length_map, hlen]
            exact (hsp.perm_of_length_le hlen2).symm
  · intro hperm
    have hlen : d.length = 3 := by
      have h4 := hperm.length_eq
      unfold keysOf at h4
      rw [List.length_map] at h4
      simpa using h4
    have hm1 : fieldCourseId ∈ keysOf d := hperm.symm.subset (by simp)
    have hm2 : fieldTitle ∈ keysOf d := hperm.symm.subset (by simp)
    have hm3 : fieldRaw ∈ keysOf d := hperm.symm.subset (by simp)
    obtain ⟨i, hi⟩ := Option.isSome_iff_exists.mp (lookupKey_isSome_iff.mpr hm1)
    obtain ⟨t, ht⟩ := Option.isSome_iff_exists.mp (lookupKey_isSome_iff.mpr hm2)
    obtain ⟨r, hr⟩ := Option.isSome_iff_exists.mp (lookupKey_isSome_iff.mpr hm3)
    unfold courseOfDict
    rw [hi, ht, hr]
    show (if d.length = 3 then some (Course.mk i t r) else none).isSome = true
    rw [if_pos hlen]
    rfl

theorem filter_of_map {α β : Type} (p : β → Bool) (f : α → β) :
    ∀ l : List α, (l.map f).filter p = (l.filter (fun x => p (f x))).map f
  | [] => rfl
  | a :: l => by
    show List.filter p (f a :: l.map f) = _
    by_cases hpa : p (f a) = true
    · rw [List.filter_cons_of_pos hpa]
      have hrhs : (a :: l).filter (fun x => p (f x)) = a :: l.filter (fun x => p (f x)) :=
        List.filter_cons_of_pos hpa
      rw [hrhs, List.map_cons, filter_of_map p f l]
    · have hpa2 : ¬ p (f a) = true := hpa
      rw [List.filter_cons_of_neg hpa2]
      have hrhs : (a :: l).filter (fun x => p (f x)) = l.filter (fun x => p (f x)) :=
        List.filter_cons_of_neg hpa2
      rw [hrhs, filter_of_map p f l]

theorem segments_map_fst : ∀ (ms : List (Str × Nat)) (L : Nat),
    (segments ms L).map (fun seg => seg.1) = ms.map (fun mp => mp.1)
  | [], _ => rfl
  | [(c1, s1)], _ => rfl
  | (c1, s1) :: m2 :: rest, L => by
    show (c1 :: (segments (m2 :: rest) L).map (fun seg => seg.1)) = _
    rw [segments_map_fst (m2 :: rest) L]
    rfl

theorem runWatchers_step (w : WatcherRun) (ws : List WatcherRun)
    (saved : List (List (Str × JsonDict))) (last : Option (List Course))
    (curr : List (Str × Course)) (newC remC : List Course)
    (hf : w.fetched = some curr)
    (hd : diff_courses w.prevState curr = some (newC, remC))
    (hs : newC.isEmpty = true ∨ w.sendOk = true) :
    runWatchers (w :: ws) saved last =
      runWatchers ws (saved ++ [serializeSnap curr]) (some newC) := by
  show (match w.fetched with
        | none => MainResult.aborted saved
        | some curr =>
          match diff_courses w.prevState curr with
          | none => MainResult.aborted saved
          | some (newCourses, _removed) =>
            if newCourses.isEmpty then
              runWatchers ws (saved ++ [serializeSnap curr]) (some newCourses)
            else if w.sendOk then
              runWatchers ws (saved ++ [serializeSnap curr]) (some newCourses)
            else MainResult.aborted saved) = _
  rw [hf]
  show (match diff_courses w.prevState curr with
        | none => MainResult.aborted saved
        | some (newCourses, _removed) =>
          if newCourses.isEmpty then
            runWatchers ws (saved ++ [serializeSnap curr]) (some newCourses)
          else if w.sendOk then
            runWatchers ws (saved ++ [serializeSnap curr]) (some newCourses)
          else MainResult.aborted saved) = _
  rw [hd]
  show (if newC.isEmpty then runWatchers ws (saved ++ [serializeSnap curr]) (some newC)
        else if w.sendOk then runWatchers ws (saved ++ [serializeSnap curr]) (some newC)
        else MainResult.aborted saved) = _
  rcases hs with hs | hs
  · rw [if_pos hs]
  · by_cases he : newC.isEmpty = true
    · rw [if_pos he]
    · rw [if_neg he, if_pos hs]

theorem runWatchers_finished_last :
    ∀ (ws : List WatcherRun) (saved : List (List (Str × JsonDict)))
      (last : Option (List Course)) (saved2 : List (List (Str × JsonDict)))
      (nc : List Course),
      runWatchers ws saved last = MainResult.finished saved2 (some nc) →
      (ws = [] ∧ last = some nc) ∨
      (∃ wlast curr remC, ws.getLast? = some wlast ∧ wlast.fetched = some curr ∧
        diff_courses wlast.prevState curr = some (nc, remC))
  | [], saved, last, saved2, nc, h => by
    have h3 : MainResult.finished saved last = MainResult.finished saved2 (some nc) := h
    rw [MainResult.finished.injEq] at h3
    exact Or.inl ⟨rfl, h3.2⟩
  | w :: ws2, saved, last, saved2, nc, h => by
    have h0 : (match w.fetched with
        | none => MainResult.aborted saved
        | some curr =>
          match diff_courses w.prevState curr with
          | none => MainResult.aborted saved
          | some (newCourses, _removed) =>
            if newCourses.isEmpty then
              runWatchers ws2 (saved ++ [serializeSnap curr]) (some newCourses)
            else if w.sendOk then
              runWatchers ws2 (saved ++ [serializeSnap curr]) (some newCourses)
            else MainResult.aborted saved) = MainResult.finished saved2 (some nc) := h
    cases hf : w.fetched with
    | none =>
      rw [hf] at h0
      exact absurd h0 (by simp)
    | some curr =>
      rw [hf] at h0
      have h1 : (match diff_courses w.prevState curr with
          | none => MainResult.aborted saved
          | some (newCourses, _removed) =>
            if newCourses.isEmpty then
              runWatchers ws2 (saved ++ [serializeSnap curr]) (some newCourses)
            else if w.sendOk then
              runWatchers ws2 (saved ++ [serializeSnap curr]) (some newCourses)
            else MainResult.aborted saved) = MainResult.finished saved2 (some nc) := h0
      cases hd : diff_courses w.prevState curr with
      | none =>
        rw [hd] at h1
        exact absurd h1 (by simp)
      | some p =>
        rw [hd] at h1
        obtain ⟨newC, remC⟩ := p
        have h2 : (if newC.isEmpty then
              runWatchers ws2 (saved ++ [serializeSnap curr]) (some newC)
            else if w.sendOk then
              runWatchers ws2 (saved ++ [serializeSnap curr]) (some newC)
            else MainResult.aborted saved) = MainResult.finished saved2 (some nc) := h1
        have hcont : ∀ (hrec : runWatchers ws2 (saved ++ [serializeSnap curr])
            (some newC) = MainResult.finished saved2 (some nc)),
            (ws2 = [] ∧ (some newC : Option (List Course)) = some nc) ∨
            (∃ wlast curr2 remC2, ws2.getLast? = some wlast ∧
              wlast.fetched = some curr2 ∧
              diff_courses wlast.prevState curr2 = some (nc, remC2)) :=
          fun hrec => runWatchers_finished_last ws2 _ _ _ _ hrec
        have hout : (ws2 = [] ∧ (some newC : Option (List Course)) = some nc) ∨
            (∃ wlast curr2 remC2, ws2.getLast? = some wlast ∧
              wlast.fetched = some curr2 ∧
              diff_courses wlast.prevState curr2 = some (nc, remC2)) := by
          by_cases he : newC.isEmpty = true
          · rw [if_pos he] at h2
            exact hcont h2
          · rw [if_neg he] at h2
            by_cases hsend : w.sendOk = true
            · rw [if_pos hsend] at h2
              exact hcont h2
            · rw [if_neg hsend] at h2
              exact absurd h2 (by simp)
        right
        rcases hout with ⟨hws2, hnc⟩ | ⟨wlast, curr2, remC2, hg, hf2, hd2⟩
        · subst hws2
          have hnc2 : newC = nc := by injection hnc
          subst hnc2
          exact ⟨w, curr, remC, rfl, hf, hd⟩
        · refine ⟨wlast, curr2, remC2, ?_, hf2, hd2⟩
          cases ws2 with
          | nil => simp at hg
          | cons w2 ws3 => rw [List.getLast?_cons_cons]; exact hg

theorem containsSub_false_iff {n h : Str} : containsSub n h = false ↔ ¬ SubStr n h := by
  rw [← containsSub_iff]
  cases containsSub n h <;> simp

/-- Claim C4: for every text, the segmentation inside the record pipeline produces exactly
one block per identifier match; the block of match i spans from the start offset of match
i inclusive to the start offset of match i plus one exclusive, or to the end of the text
for the last match, and the record is built from that span stripped of surrounding
whitespace; a text with zero matches produces zero blocks and the empty record set. -/
theorem claim_C4 (text : Str) :
    ((segments (courseIdMatches text) text.length).length =
      (courseIdMatches text).length) ∧
    (∀ (i : Nat) (cid : Str) (s : Nat), (courseIdMatches text).get? i = some (cid, s) →
      (segments (courseIdMatches text) text.length).get? i = some (cid, s,
        (match (courseIdMatches text).get? (i + 1) with
         | some m2 => m2.2
         | none => text.length))) ∧
    (∀ seg ∈ segments (courseIdMatches text) text.length,
      recordOfSeg text seg = (seg.1, Course.mk seg.1
        (computeTitle seg.1 (trimStr (sliceStr text seg.2.1 seg.2.2)))
        (trimStr (sliceStr text seg.2.1 seg.2.2)))) ∧
    (courseIdMatches text = [] → pdf_to_courses text = []) := by
  refine ⟨segments_length _ _, fun i cid s h => segments_get? _ _ i cid s h,
    fun seg _ => rfl, fun h => ?_⟩
  unfold pdf_to_courses
  rw [h]
  rfl

theorem claim_C4_witness :
    courseIdMatches demoTextNone = [] ∧ pdf_to_courses demoTextNone = [] :=
  ⟨by decide, (claim_C4 demoTextNone).2.2.2 (by decide)⟩

/-- Claim C5: the title of a block is chosen by scanning at most the first six non-empty
stripped lines in document order; a line containing an identifier match is accepted, after
stripping all matches and trimming surrounding whitespace and dash punctuation, exactly
when the remainder is non-empty and not a case-insensitive repeat of the identifier of the
block; a line without an identifier match is accepted exactly when its stripped length is
at least six; the title is the first accepted candidate and the empty string when no line
qualifies. -/
theorem claim_C5 (cid block : Str) :
    computeTitle cid block =
      (((lines_of block).take 6).findSome? (titleCandidate cid)).getD [] :=
  titleScan_eq_findSome cid ((lines_of block).take 6)

/-- Claim C6: the snapshot differ compares only the identifier sets of its inputs: when
prior and current snapshots have the same key set, it returns two empty sequences even if
stored field values such as the titles differ, and in particular diffing a snapshot
against its own serialization yields two empty sequences. -/
theorem claim_C6 :
    (∀ (prev : List (Str × JsonDict)) (curr : List (Str × Course)),
      (∀ k, k ∈ keysOf prev ↔ k ∈ keysOf curr) →
      diff_courses prev curr = some ([], [])) ∧
    (∀ curr : List (Str × Course), diff_courses (serializeSnap curr) curr =
      some ([], [])) := by
  have hmain : ∀ (prev : List (Str × JsonDict)) (curr : List (Str × Course)),
      (∀ k, k ∈ keysOf prev ↔ k ∈ keysOf curr) →
      diff_courses prev curr = some ([], []) := by
    intro prev curr hk
    have hadd : added_ids prev curr = [] := by
      unfold added_ids
      have h2 : (keysOf curr).filter (fun k => !memStr k (keysOf prev)) = [] := by
        rw [List.filter_eq_nil_iff]
        intro a ha
        rw [memStr_iff.mpr ((hk a).mpr ha)]
        simp
      rw [h2]
      rfl
    have hrem : removed_ids prev curr = [] := by
      unfold removed_ids
      have h2 : (keysOf prev).filter (fun k => !memStr k (keysOf curr)) = [] := by
        rw [List.filter_eq_nil_iff]
        intro a ha
        rw [memStr_iff.mpr ((hk a).mp ha)]
        simp
      rw [h2]
      rfl
    unfold diff_courses
    rw [hadd, hrem]
    rfl
  have hkeys : ∀ curr : List (Str × Course), keysOf (serializeSnap curr) = keysOf curr := by
    intro curr
    unfold serializeSnap keysOf
    rw [List.map_map]
    rfl
  exact ⟨hmain, fun curr => hmain _ _ (fun k => by rw [hkeys curr])⟩

theorem claim_C6_witness :
    (∀ k, k ∈ keysOf demoPrevOld ↔ k ∈ keysOf demoCurrNew) ∧
    diff_courses demoPrevOld demoCurrNew = some ([], []) :=
  ⟨fun _ => Iff.rfl, claim_C6.1 demoPrevOld demoCurrNew (fun _ => Iff.rfl)⟩

/-- Claim C8: after a successful document fetch, the download step raises exactly when the
lower-cased content type does not contain pdf and the lower-cased content disposition does
not contain attachment; in the failing case the raw response body is written to the debug
file before raising, and otherwise the raw response bytes are returned with no debug file
written. -/
theorem claim_C8 (ctype disp : Str) (content : List Nat) :
    ((download_pdf_check ctype disp content).2 = FetchOutcome.raised ↔
      (¬ SubStr pdfToken (lowerStr ctype) ∧ ¬ SubStr attachToken (lowerStr disp))) ∧
    ((download_pdf_check ctype disp content).2 = FetchOutcome.raised →
      (download_pdf_check ctype disp content).1 = some content) ∧
    ((download_pdf_check ctype disp content).2 ≠ FetchOutcome.raised →
      (download_pdf_check ctype disp content).2 = FetchOutcome.ok content ∧
      (download_pdf_check ctype disp content).1 = none) := by
  unfold download_pdf_check
  by_cases hc : (!containsSub pdfToken (lowerStr ctype) &&
      !containsSub attachToken (lowerStr disp)) = true
  · rw [if_pos hc]
    have hc2 : ¬ SubStr pdfToken (lowerStr ctype) ∧
        ¬ SubStr attachToken (lowerStr disp) := by
      rw [Bool.and_eq_true, Bool.not_eq_true', Bool.not_eq_true'] at hc
      exact ⟨containsSub_false_iff.mp hc.1, containsSub_false_iff.mp hc.2⟩
    exact ⟨⟨fun _ => hc2, fun _ => rfl⟩, fun _ => rfl, fun hne => absurd rfl hne⟩
  · rw [if_neg hc]
    have hc2 : ¬(¬ SubStr pdfToken (lowerStr ctype) ∧
        ¬ SubStr attachToken (lowerStr disp)) := by
      intro hcon
      apply hc
      rw [Bool.and_eq_true, Bool.not_eq_true', Bool.not_eq_true']
      exact ⟨containsSub_false_iff.mpr hcon.1, containsSub_false_iff.mpr hcon.2⟩
    refine ⟨⟨fun hr => absurd hr (by simp), fun hs => absurd hs hc2⟩,
      fun hr => absurd hr (by simp), fun _ => ⟨rfl, rfl⟩⟩

theorem claim_C8_witness :
    (download_pdf_check "text/html".toList "".toList [60, 104]).2 = FetchOutcome.raised ∧
    (download_pdf_check "text/html".toList "".toList [60, 104]).1 = some [60, 104] :=
  ⟨by decide, (claim_C8 "text/html".toList "".toList [60, 104]).2.1 (by decide)⟩

/-- Claim C3: for every prior and current snapshot on which the differ completes, the new
identifiers are exactly the current keys that are not prior keys and the removed
identifiers exactly the prior keys that are not current keys, both ascending by string
comparison; the added records are the current records looked up at the new identifiers in
that order, the removed records are reconstructed from the prior stored fields at the
removed identifiers in that order, and the two identifier sets are disjoint and partition
the current and prior key sets together with the unchanged identifiers. -/
theorem claim_C3 (prev : List (Str × JsonDict)) (curr : List (Str × Course))
    (added removed : List Course)
    (h : diff_courses prev curr = some (added, removed)) :
    (added_ids prev curr).Pairwise (fun a b => strLtB b a = false) ∧
    (removed_ids prev curr).Pairwise (fun a b => strLtB b a = false) ∧
    (∀ k, k ∈ added_ids prev curr ↔ (k ∈ keysOf curr ∧ ¬ k ∈ keysOf prev)) ∧
    (∀ k, k ∈ removed_ids prev curr ↔ (k ∈ keysOf prev ∧ ¬ k ∈ keysOf curr)) ∧
    (∀ k, ¬(k ∈ added_ids prev curr ∧ k ∈ removed_ids prev curr)) ∧
    (∀ k, k ∈ keysOf curr ↔
      (k ∈ added_ids prev curr ∨ (k ∈ keysOf curr ∧ k ∈ keysOf prev))) ∧
    (∀ k, k ∈ keysOf prev ↔
      (k ∈ removed_ids prev curr ∨ (k ∈ keysOf prev ∧ k ∈ keysOf curr))) ∧
    added.length = (added_ids prev curr).length ∧
    (∀ (i : Nat) (hi : i < (added_ids prev curr).length) (hi2 : i < added.length),
      lookupKey ((added_ids prev curr).get ⟨i, hi⟩) curr = some (added.get ⟨i, hi2⟩)) ∧
    removed.length = (removed_ids prev curr).length ∧
    (∀ (i : Nat) (hi : i < (removed_ids prev curr).length) (hi2 : i < removed.length),
      (lookupKey ((removed_ids prev curr).get ⟨i, hi⟩) prev).bind courseOfDict =
        some (removed.get ⟨i, hi2⟩)) := by
  have hpairA : (added_ids prev curr).Pairwise (fun a b => strLtB b a = false) :=
    sortStrs_pairwise _
  have hpairR : (removed_ids prev curr).Pairwise (fun a b => strLtB b a = false) :=
    sortStrs_pairwise _
  unfold diff_courses at h
  cases hn : mapOption (fun cid => lookupKey cid curr) (added_ids prev curr) with
  | none =>
    rw [hn] at h
    exact absurd h (by simp)
  | some newC =>
    rw [hn] at h
    have h1 : (match (if (removed_ids prev curr).isEmpty then some ([] : List Course)
        else mapOption (fun cid => (lookupKey cid prev).bind courseOfDict)
          (removed_ids prev curr)) with
      | none => none
      | some removed_courses => some (newC, removed_courses)) = some (added, removed) := h
    cases hr : (if (removed_ids prev curr).isEmpty then some ([] : List Course)
        else mapOption (fun cid => (lookupKey cid prev).bind courseOfDict)
          (removed_ids prev curr)) with
    | none =>
      rw [hr] at h1
      exact absurd h1 (by simp)
    | some remC =>
      rw [hr] at h1
      have h4 : (newC, remC) = (added, removed) := by injection h1
      have ha : newC = added := congrArg Prod.fst h4
      have hb : remC = removed := congrArg Prod.snd h4
      subst ha
      subst hb
      refine ⟨hpairA, hpairR, fun k => mem_added_ids, fun k => mem_removed_ids,
        fun k hk => (mem_removed_ids.mp hk.2).2 ((mem_added_ids.mp hk.1).1),
        fun k => ?_, fun k => ?_, mapOption_length hn,
        fun i hi hi2 => mapOption_get hn i hi hi2, ?_⟩
      · constructor
        · intro hkc
          by_cases hkp : k ∈ keysOf prev
          · exact Or.inr ⟨hkc, hkp⟩
          · exact Or.inl (mem_added_ids.mpr ⟨hkc, hkp⟩)
        · rintro (hka | ⟨hkc, _⟩)
          · exact (mem_added_ids.mp hka).1
          · exact hkc
      · constructor
        · intro hkp
          by_cases hkc : k ∈ keysOf curr
          · exact Or.inr ⟨hkp, hkc⟩
          · exact Or.inl (mem_removed_ids.mpr ⟨hkp, hkc⟩)
        · rintro (hkr | ⟨hkp, _⟩)
          · exact (mem_removed_ids.mp hkr).1
          · exact hkp
      · by_cases he : (removed_ids prev curr).isEmpty = true
        · rw [if_pos he] at hr
          have hrc : ([] : List Course) = remC := by injection hr
          have hid : removed_ids prev curr = [] := List.isEmpty_iff.mp he
          subst hrc
          refine ⟨by rw [hid]; rfl, fun i hi hi2 => ?_⟩
          rw [hid] at hi
          exact absurd hi (by simp)
        · rw [if_neg he] at hr
          exact ⟨mapOption_length hr, fun i hi hi2 => mapOption_get hr i hi hi2⟩

theorem claim_C3_witness :
    diff_courses [] demoCurr2 = some ([demoCourseA, demoCourseC], []) ∧
    (added_ids [] demoCurr2).Pairwise (fun a b => strLtB b a = false) :=
  ⟨by decide, (claim_C3 [] demoCurr2 [demoCourseA, demoCourseC] [] (by decide)).1⟩

/-- Claim C10: the differ reconstructs each removed record with Course applied to the
stored fields of the prior snapshot; it completes for every current snapshot under the
precondition that every prior value carries exactly the three record fields, the
reconstruction of a single value succeeds exactly when its field names are a permutation
of the three record field names, and a prior value with missing fields makes the differ
fail as soon as its key is removed. -/
theorem claim_C10 :
    (∀ (prev : List (Str × JsonDict)) (curr : List (Str × Course)),
      (∀ kv ∈ prev, (keysOf kv.2).Perm [fieldCourseId, fieldTitle, fieldRaw]) →
      (diff_courses prev curr).isSome = true) ∧
    (∀ d : JsonDict, (courseOfDict d).isSome = true ↔
      (keysOf d).Perm [fieldCourseId, fieldTitle, fieldRaw]) ∧
    diff_courses [("FK2.604-A".toList, demoBadDict)] [] = none := by
  refine ⟨?_, fun d => courseOfDict_isSome_iff, by decide⟩
  intro prev curr hgood
  have hnew : (mapOption (fun cid => lookupKey cid curr)
      (added_ids prev curr)).isSome = true := by
    apply mapOption_isSome
    intro a ha
    exact lookupKey_isSome_iff.mpr (mem_added_ids.mp ha).1
  have hrem : (if (removed_ids prev curr).isEmpty then some ([] : List Course)
      else mapOption (fun cid => (lookupKey cid prev).bind courseOfDict)
        (removed_ids prev curr)).isSome = true := by
    by_cases he : (removed_ids prev curr).isEmpty = true
    · rw [if_pos he]
      rfl
    · rw [if_neg he]
      apply mapOption_isSome
      intro a ha
      have hmemP : a ∈ keysOf prev := (mem_removed_ids.mp ha).1
      have hlk : (lookupKey a prev).isSome = true := lookupKey_isSome_iff.mpr hmemP
      cases hl : lookupKey a prev with
      | none =>
        rw [hl] at hlk
        exact absurd hlk (by simp)
      | some dd =>
        rw [Option.some_bind]
        exact courseOfDict_isSome_iff.mpr (hgood (a, dd) (lookupKey_mem hl))
  obtain ⟨newC, hn⟩ := Option.isSome_iff_exists.mp hnew
  obtain ⟨remC, hre⟩ := Option.isSome_iff_exists.mp hrem
  unfold diff_courses
  rw [hn, hre]
  rfl

theorem claim_C10_witness :
    (∀ kv ∈ demoPrevOld, (keysOf kv.2).Perm [fieldCourseId, fieldTitle, fieldRaw]) ∧
    (diff_courses demoPrevOld []).isSome = true :=
  ⟨by decide, claim_C10.1 demoPrevOld [] (by decide)⟩

/-- Claim C7: when the same identifier is matched two or more times in one document, the
record set contains exactly one record under that identifier, and the stored record is the
one built from the block of the occurrence latest in document order. -/
theorem claim_C7 (text cid : Str)
    (h : 2 ≤ ((courseIdMatches text).filter (fun mp => decide (mp.1 = cid))).length) :
    lookupKey cid (pdf_to_courses text) =
      (((segments (courseIdMatches text) text.length).filter
        (fun seg => decide (seg.1 = cid))).getLast?).map
          (fun seg => (recordOfSeg text seg).2) ∧
    (pdf_to_courses text).countP (fun kv => decide (kv.1 = cid)) = 1 := by
  have hlookup : lookupKey cid (pdf_to_courses text) =
      (((segments (courseIdMatches text) text.length).filter
        (fun seg => decide (seg.1 = cid))).getLast?).map
          (fun seg => (recordOfSeg text seg).2) := by
    rw [pdf_to_courses_eq_foldIns, lookupKey_foldIns, filter_of_map, List.getLast?_map]
    cases hlast : ((segments (courseIdMatches text) text.length).filter
        (fun seg => decide ((recordOfSeg text seg).1 = cid))).getLast? with
    | none =>
      have hsame : ((segments (courseIdMatches text) text.length).filter
          (fun seg => decide (seg.1 = cid))).getLast? =
          ((segments (courseIdMatches text) text.length).filter
            (fun seg => decide ((recordOfSeg text seg).1 = cid))).getLast? := rfl
      rw [hsame, hlast]
      rfl
    | some seg =>
      have hsame : ((segments (courseIdMatches text) text.length).filter
          (fun seg => decide (seg.1 = cid))).getLast? =
          ((segments (courseIdMatches text) text.length).filter
            (fun seg => decide ((recordOfSeg text seg).1 = cid))).getLast? := rfl
      rw [hsame, hlast]
      rfl
  have hfilterlen : ((segments (courseIdMatches text) text.length).filter
      (fun seg => decide (seg.1 = cid))).length =
      ((courseIdMatches text).filter (fun mp => decide (mp.1 = cid))).length := by
    rw [← List.countP_eq_length_filter, ← List.countP_eq_length_filter]
    have h1 : List.countP (fun seg => decide (seg.1 = cid))
        (segments (courseIdMatches text) text.length) =
        List.countP (fun x => decide (x = cid))
          ((segments (courseIdMatches text) text.length).map (fun seg => seg.1)) := by
      rw [List.countP_map]
      rfl
    have h2 : List.countP (fun mp => decide (mp.1 = cid)) (courseIdMatches text) =
        List.countP (fun x => decide (x = cid))
          ((courseIdMatches text).map (fun mp => mp.1)) := by
      rw [List.countP_map]
      rfl
    rw [h1, h2, segments_map_fst]
  have hne : ((segments (courseIdMatches text) text.length).filter
      (fun seg => decide (seg.1 = cid))).length ≠ 0 := by
    rw [hfilterlen]
    omega
  have hsome : (lookupKey cid (pdf_to_courses text)).isSome = true := by
    rw [hlookup]
    cases hlast : ((segments (courseIdMatches text) text.length).filter
        (fun seg => decide (seg.1 = cid))).getLast? with
    | none =>
      exfalso
      apply hne
      have h5 := (List.getLast?_isSome (l := (segments (courseIdMatches text)
          text.length).filter (fun seg => decide (seg.1 = cid)))).mpr
      by_cases hnil : (segments (courseIdMatches text) text.length).filter
          (fun seg => decide (seg.1 = cid)) = []
      · rw [hnil]
        rfl
      · rw [hlast] at h5
        exact absurd (h5 hnil) (by simp)
    | some seg => rfl
  refine ⟨hlookup, ?_⟩
  have hmemK : cid ∈ keysOf (pdf_to_courses text) := lookupKey_isSome_iff.mp hsome
  have hnodup : (keysOf (pdf_to_courses text)).Nodup := by
    rw [pdf_to_courses_eq_foldIns]
    exact nodupKeys_foldIns _ [] (by simp [keysOf])
  have hcount : List.countP (fun kv => kv.1 = cid) (pdf_to_courses text) =
      List.countP (fun x => decide (x = cid)) (keysOf (pdf_to_courses text)) := by
    unfold keysOf
    rw [List.countP_map]
    rfl
  rw [hcount]
  exact countP_eq_one_of_nodup hnodup hmemK

theorem claim_C7_witness :
    2 ≤ ((courseIdMatches demoTextDup).filter
      (fun mp => decide (mp.1 = "FK2.604".toList))).length ∧
    (pdf_to_courses demoTextDup).countP
      (fun kv => decide (kv.1 = "FK2.604".toList)) = 1 :=
  ⟨by decide, (claim_C7 demoTextDup "FK2.604".toList (by decide)).2⟩

/-- Claim C9: every record set produced by the pipeline is well formed: the mapping key
equals the identifier field of its record, the raw text begins with that identifier and is
therefore non-empty, and the raw text contains at least one identifier match. -/
theorem claim_C9 (text k : Str) (c : Course) (h : (k, c) ∈ pdf_to_courses text) :
    k = c.course_id ∧ (∃ rest, c.raw = c.course_id ++ rest) ∧ c.raw ≠ [] ∧
      courseIdMatches c.raw ≠ [] := by
  obtain ⟨seg, hseg, heq⟩ := mem_pdf_to_courses h
  obtain ⟨cid, s, e⟩ := seg
  have hk : k = cid := congrArg Prod.fst heq
  have hc : c = Course.mk cid (computeTitle cid (trimStr (sliceStr text s e)))
      (trimStr (sliceStr text s e)) := congrArg Prod.snd heq
  obtain ⟨hmm, hse, heL⟩ := segments_mem (courseIdMatches text) text.length
    (courseIdMatches_chain text) courseIdMatches_bound (cid, s, e) hseg
  obtain ⟨mid2, hblock, hnw2, hfacts⟩ := block_decomp hmm hse heL
  obtain ⟨⟨c0, t0, hcid0, _⟩, _, hre⟩ := hfacts
  subst hc
  subst hk
  refine ⟨rfl, ⟨mid2, hblock⟩, ?_, ?_⟩
  · show trimStr (sliceStr text s e) ≠ []
    rw [hblock, hcid0]
    simp
  · show courseIdMatches (trimStr (sliceStr text s e)) ≠ []
    rw [hblock]
    have hsome := hre mid2 hnw2
    rw [hcid0] at hsome ⊢
    rw [List.cons_append] at hsome ⊢
    show scanAux (c0 :: (t0 ++ mid2)) 0 0 false ≠ []
    rw [scanAux_unfold_zero]
    cases hmc : matchIdCore (c0 :: (t0 ++ mid2)) with
    | none =>
      rw [hmc] at hsome
      exact absurd hsome (by simp)
    | some m0 => simp

theorem claim_C9_witness :
    ("FK2.604-A".toList, demoCourse9) ∈ pdf_to_courses demoText9 ∧
    ("FK2.604-A".toList = demoCourse9.course_id ∧
      (∃ rest, demoCourse9.raw = demoCourse9.course_id ++ rest) ∧
      demoCourse9.raw ≠ [] ∧ courseIdMatches demoCourse9.raw ≠ []) :=
  ⟨by decide, claim_C9 demoText9 "FK2.604-A".toList demoCourse9 (by decide)⟩

/-- Claim C1, original statement refuted and amended.  The run-level flag written to the
GitHub output after the loop is computed from the loop variable new_courses, which after a
completed run holds the additions of the LAST search only: when the flag was written, the
last watcher in list order fetched some current snapshot, its diff succeeded, and the flag
is true exactly when that last diff produced a non-empty added list.  (The original claim,
that the flag is true when ANY search of the run produced additions, is refuted by
claim_C1_counterexample.) -/
theorem claim_C1_amended (ws : List WatcherRun) (b : Bool)
    (h : githubOutputFlag (mainRun ws) = some b) :
    ∃ wlast curr newC remC, ws.getLast? = some wlast ∧ wlast.fetched = some curr ∧
      diff_courses wlast.prevState curr = some (newC, remC) ∧ b = !newC.isEmpty := by
  cases hm : mainRun ws with
  | aborted s =>
    rw [hm] at h
    exact absurd h (by simp [githubOutputFlag])
  | finished s last =>
    rw [hm] at h
    cases last with
    | none => exact absurd h (by simp [githubOutputFlag])
    | some nc =>
      have hb : b = !nc.isEmpty := by
        have h2 : some (!nc.isEmpty) = some b := h
        injection h2 with h3
        exact h3.symm
      rcases runWatchers_finished_last ws [] none s nc hm with ⟨_, hlast⟩ | hout
      · exact absurd hlast (by simp)
      · obtain ⟨wlast, curr, remC, hg, hf, hd⟩ := hout
        exact ⟨wlast, curr, nc, remC, hg, hf, hd, hb⟩

theorem claim_C1_witness :
    ∃ wlast curr newC remC, [demoWatcherAdd].getLast? = some wlast ∧
      wlast.fetched = some curr ∧
      diff_courses wlast.prevState curr = some (newC, remC) ∧ true = !newC.isEmpty :=
  claim_C1_amended [demoWatcherAdd] true (by decide)

/-- Claim C1 counterexample: a run whose first search produced an addition and whose
second search produced none writes has_new as false, so the flag does not reflect
additions from ANY search of the run. -/
theorem claim_C1_counterexample :
    githubOutputFlag (mainRun [demoWatcherAdd, demoWatcherQuiet]) = some false ∧
    demoWatcherAdd.fetched = some demoCurrNew ∧
    diff_courses demoWatcherAdd.prevState demoCurrNew = some ([demoCourseNew], []) ∧
    ([demoCourseNew] : List Course) ≠ [] := by
  refine ⟨by decide, rfl, by decide, by decide⟩

/-- Claim C2, original statement refuted and amended.  For every search iteration whose
diff was computed, the freshly built current snapshot is persisted before the loop moves
to the next search regardless of whether the diff was empty, PROVIDED the notification
hand-off for that search did not fail; a failing notification aborts the run before the
snapshot of that search is persisted (shown by claim_C2_counterexample). -/
theorem claim_C2_amended (w : WatcherRun) (ws : List WatcherRun)
    (saved : List (List (Str × JsonDict))) (last : Option (List Course))
    (curr : List (Str × Course)) (newC remC : List Course)
    (hf : w.fetched = some curr)
    (hd : diff_courses w.prevState curr = some (newC, remC))
    (hs : newC.isEmpty = true ∨ w.sendOk = true) :
    runWatchers (w :: ws) saved last =
      runWatchers ws (saved ++ [serializeSnap curr]) (some newC) :=
  runWatchers_step w ws saved last curr newC remC hf hd hs

theorem claim_C2_witness :
    demoWatcherQuiet.fetched = some demoCurrNew ∧
    diff_courses demoWatcherQuiet.prevState demoCurrNew = some ([], []) ∧
    runWatchers [demoWatcherQuiet] [] none =
      runWatchers [] ([] ++ [serializeSnap demoCurrNew]) (some []) :=
  ⟨rfl, by decide,
    claim_C2_amended demoWatcherQuiet [] [] none demoCurrNew [] [] rfl (by decide)
      (Or.inl rfl)⟩

/-- Claim C2 counterexample: a search with additions whose notification delivery fails
aborts the run with no snapshot persisted at all, although its diff and current snapshot
had been computed, so persistence is not unconditional with respect to the notification
outcome. -/
theorem claim_C2_counterexample :
    mainRun [demoWatcherFail, demoWatcherQuiet] = MainResult.aborted [] ∧
    demoWatcherFail.sendOk = false ∧
    demoWatcherFail.fetched = some demoCurrNew ∧
    diff_courses demoWatcherFail.prevState demoCurrNew = some ([demoCourseNew], []) ∧
    ([demoCourseNew] : List Course) ≠ [] := by
  refine ⟨by decide, rfl, rfl, by decide, by decide⟩

end VHS
